import Mathlib

/-!
Verification of the overlap-counting core of epiScanpy's
`count_matrix/_bld_atac_mtx.py`.

The development shallowly embeds the functions `count` and `get_barcodes`:

* level B (`fragStep`, `runScan`, `countF`, `countS`): the per-fragment
  merge-join logic of `count` (source lines 199-294) over already-parsed
  fragment records;
* level A (`countLineStep`, `runLines`, `countLines`, `get_barcodes`):
  the line-oriented reading loop (comment skipping, the one-time trim
  decision, tab splitting, field extraction and `int()` parsing) feeding
  level B.

Machine-level failure modes of the Python code (list `IndexError`,
dict `KeyError`, `int()` `ValueError`) are made explicit through `Except`.
-/

set_option maxHeartbeats 1000000

namespace EpiScan

/-- A genomic feature `[chrom, start, stop]` as `count` receives it. -/
structure Feature where
  chrom : String
  start : Int
  stop : Int
deriving DecidableEq

/-- A parsed fragment record: chromosome, interval and cell barcode. -/
structure Frag where
  chrom : String
  start : Int
  stop : Int
  bc : String
deriving DecidableEq

/-- Failure modes of the Python code.  `malformedRecord` is the error the
spec asks for on short records; the code itself only ever raises the
generic `indexError` / `keyError` / `valueError`. -/
inductive Err where
  | malformedRecord
  | indexError
  | keyError
  | valueError
deriving DecidableEq

/-- Default feature used with `List.getD` in statements; all uses are
guarded by index bounds. -/
def defFeat : Feature := ⟨"", 0, 0⟩

/-- State of the scan loop of `count`: the feature cursor `feature_idx`,
the accumulator, and whether the loop has executed `break`. -/
structure ScanState (α : Type) where
  fidx : Nat
  mtx : α
  done : Bool
deriving DecidableEq

/-! ### Chromosome ranks (source lines 160-165)

`chrom_mapping` maps each chromosome to the next unused integer the first
time it appears in the feature list.  The dict is modelled as an
association list; a fresh binding is consed on the front, so
`List.lookup` sees the binding that a Python dict would. -/

/-- The loop body of lines 161-165: walk the chromosome names, assigning
the counter `k` to each name not yet present. -/
def buildRanks (m : List (String × Nat)) (k : Nat) : List String → List (String × Nat)
  | [] => m
  | c :: cs =>
    if (m.lookup c).isSome then buildRanks m k cs
    else buildRanks ((c, k) :: m) (k + 1) cs

/-- `chrom_mapping` lookup: rank of chromosome `c`, `none` when `c` has no
feature. -/
def rankOf (F : List Feature) (c : String) : Option Nat :=
  (buildRanks [] 0 (F.map Feature.chrom)).lookup c

/-! ### Barcode index (source line 145)

`bc_mapping = {bc: i for i, bc in enumerate(valid_bcs)}`: on duplicate
barcodes the later assignment overwrites, so lookup yields the index of
the last occurrence.  Modelled as an association list whose later
bindings are consed on the front during the left-to-right walk. -/

/-- The dict comprehension of line 145, walking `valid_bcs` with index
offset `i`; later bindings end up in front. -/
def bcDictAux : List String → Nat → List (String × Nat)
  | [], _ => []
  | b :: bs, i => bcDictAux bs (i + 1) ++ [(b, i)]

/-- `bc_mapping[c]`. -/
def bcMapping (V : List String) (c : String) : Option Nat :=
  (bcDictAux V 0).lookup c

/-- Index of the last occurrence of `c` in a list (specification used to
reason about `bcMapping`). -/
def lastIdx : List String → String → Option Nat
  | [], _ => none
  | b :: bs, c =>
    match lastIdx bs c with
    | some r => some (r + 1)
    | none => if b = c then some 0 else none

/-! ### Cursor-advancing loops and the probe of `count` -/

/-- The `while` loop of line 219, written with its termination measure
`F.length - i` as structural fuel so that it computes by `rfl`. -/
def advanceChromAux (F : List Feature) (cf : Nat) : Nat → Nat → Nat
  | 0, i => i
  | fuel + 1, i =>
    if h : i < F.length then
      match rankOf F (F[i]).chrom with
      | some r => if cf > r then advanceChromAux F cf fuel (i + 1) else i
      | none => i
    else i

/-- The `while` loop of line 219: skip features on chromosomes of rank
below `cf`.  (The `none` rank branch is unreachable: every feature
chromosome is ranked, see `rank_total`.) -/
def advanceChrom (F : List Feature) (cf : Nat) (i : Nat) : Nat :=
  advanceChromAux F cf (F.length - i) i

/-- The `while` loop of line 235, fuelled by its termination measure. -/
def advanceIntervalAux (F : List Feature) (cf : Nat) (start : Int) : Nat → Nat → Nat
  | 0, i => i
  | fuel + 1, i =>
    if h : i < F.length then
      if start > (F[i]).stop ∧ rankOf F (F[i]).chrom = some cf then
        advanceIntervalAux F cf start fuel (i + 1)
      else i
    else i

/-- The `while` loop of line 235: skip same-chromosome features entirely
before the fragment start. -/
def advanceInterval (F : List Feature) (cf : Nat) (start : Int) (i : Nat) : Nat :=
  advanceIntervalAux F cf start (F.length - i) i

/-- The follow-up `while` loops of lines 259-269 and 284-294, fuelled by
their termination measure. -/
def probeHitsAux (F : List Feature) (cf : Nat) (start stop : Int) : Nat → Nat → List Nat
  | 0, _ => []
  | fuel + 1, t =>
    if h : t < F.length then
      if (¬ (stop < (F[t]).start ∨ start > (F[t]).stop)) ∧
          rankOf F (F[t]).chrom = some cf then
        t :: probeHitsAux F cf start stop fuel (t + 1)
      else []
    else []

/-- The follow-up `while` loops of lines 259-269 and 284-294: indices of
the consecutive features from `t` on that still closed-overlap the
fragment `[start, stop]` and sit on the chromosome of rank `cf`. -/
def probeHits (F : List Feature) (cf : Nat) (start stop : Int) (t : Nat) : List Nat :=
  probeHitsAux F cf start stop (F.length - t) t

/-! ### The two accumulator backends (lines 152-156, 249-252, 264-267) -/

/-- Dense backend: `count_mtx[r][c] += 1` on a list-of-lists grid. -/
def incEntry (m : List (List Nat)) (r c : Nat) : List (List Nat) :=
  match m[r]? with
  | none => m
  | some row => m.set r (row.set c (row.getD c 0 + 1))

/-- Sparse backend contents: a `lil_matrix` is observed through its
entries, modelled as a total entry function (zero off the touched cells). -/
def SpMtx : Type := Nat → Nat → Nat

/-- Sparse backend: `count_mtx_sparse[r, c] += 1`. -/
def incSparse (f : SpMtx) (r c : Nat) : SpMtx :=
  fun p q => if p = r ∧ q = c then f r c + 1 else f p q

/-- The dense grid `[[0]*len(features) for _ in valid_bcs]` of line 153. -/
def initDense (F : List Feature) (V : List String) : List (List Nat) :=
  List.replicate V.length (List.replicate F.length 0)

/-- Entry of the dense grid (zero off the grid). -/
def denseEntry (m : List (List Nat)) (r c : Nat) : Nat :=
  (m.getD r []).getD c 0

/-! ### The per-fragment step (lines 199-294) -/

/-- Outcome of the chromosome comparison of lines 214-222. -/
inductive ChromRes where
  | skip
  | brk (i : Nat)
  | go (i : Nat)
deriving DecidableEq

/-- Lines 214-222: compare the fragment rank `cf` with the rank `rcur` of
the cursor feature; discard, advance-and-possibly-break, or fall through. -/
def chromPhase (F : List Feature) (cf rcur i : Nat) : ChromRes :=
  if cf < rcur then .skip
  else if rcur < cf then
    if F.length ≤ advanceChrom F cf i then .brk (advanceChrom F cf i)
    else .go (advanceChrom F cf i)
  else .go i

/-- Lines 249-252 then 254-269 (identically 274-294): record a hit for the
cursor feature and for every consecutive overlapping same-chromosome
feature after it; the cursor is left at `i`. -/
def doHits {α : Type} (F : List Feature) (V : List String) (inc : α → Nat → Nat → α)
    (mtx : α) (i cf : Nat) (fr : Frag) : Except Err (ScanState α) :=
  match bcMapping V fr.bc with
  | none => .error .keyError
  | some r =>
    let m1 := inc mtx r i
    let m2 := (probeHits F cf fr.start fr.stop (i + 1)).foldl (fun m t => inc m r t) m1
    .ok ⟨i, m2, false⟩

/-- Lines 229-294: the interval comparison between the fragment and the
feature at the (possibly advanced) cursor `i`. -/
def intervalPhase {α : Type} (F : List Feature) (V : List String) (inc : α → Nat → Nat → α)
    (mtx : α) (i cf : Nat) (fr : Frag) : Except Err (ScanState α) :=
  match F[i]? with
  | none => .error .indexError
  | some f1 =>
    if fr.stop < f1.start then .ok ⟨i, mtx, false⟩
    else if fr.start > f1.stop then
      if F.length ≤ advanceInterval F cf fr.start i then
        .ok ⟨advanceInterval F cf fr.start i, mtx, true⟩
      else
        match F[advanceInterval F cf fr.start i]? with
        | none => .error .indexError
        | some f2 =>
          match rankOf F f2.chrom with
          | none => .error .keyError
          | some r2 =>
            if r2 ≠ cf then .ok ⟨advanceInterval F cf fr.start i, mtx, false⟩
            else if ¬ fr.stop < f2.start then
              doHits F V inc mtx (advanceInterval F cf fr.start i) cf fr
            else .ok ⟨advanceInterval F cf fr.start i, mtx, false⟩
    else doHits F V inc mtx i cf fr

/-- Lines 199-294: processing of one parsed fragment.  A state with
`done = true` models having left the `for` loop through `break`. -/
def fragStep {α : Type} (F : List Feature) (V : List String) (inc : α → Nat → Nat → α)
    (s : ScanState α) (fr : Frag) : Except Err (ScanState α) :=
  if s.done then .ok s
  else if ¬ V.contains fr.bc then .ok s
  else
    match rankOf F fr.chrom with
    | none => .ok s
    | some cf =>
      match F[s.fidx]? with
      | none => .error .indexError
      | some f0 =>
        match rankOf F f0.chrom with
        | none => .error .keyError
        | some rcur =>
          match chromPhase F cf rcur s.fidx with
          | .skip => .ok s
          | .brk i1 => .ok ⟨i1, s.mtx, true⟩
          | .go i1 => intervalPhase F V inc s.mtx i1 cf fr

/-- The fragment loop of `count` over a list of parsed fragments. -/
def runScan {α : Type} (F : List Feature) (V : List String) (inc : α → Nat → Nat → α) :
    ScanState α → List Frag → Except Err (ScanState α)
  | s, [] => .ok s
  | s, fr :: rest =>
    match fragStep F V inc s fr with
    | .error e => .error e
    | .ok s2 => runScan F V inc s2 rest

/-- `count(..., fast=True)` over parsed fragments: the dense table. -/
def countF (F : List Feature) (V : List String) (G : List Frag) :
    Except Err (List (List Nat)) :=
  (runScan F V incEntry ⟨0, initDense F V, false⟩ G).map ScanState.mtx

/-- `count(..., fast=False)` over parsed fragments: the sparse table. -/
def countS (F : List Feature) (V : List String) (G : List Frag) :
    Except Err SpMtx :=
  (runScan F V incSparse ⟨0, fun _ _ => 0, false⟩ G).map ScanState.mtx

/-- The `fast` dispatch of `count` (lines 152-156, 298-301). -/
def count (F : List Feature) (V : List String) (fast : Bool) (G : List Frag) :
    Except Err (List (List Nat) ⊕ SpMtx) :=
  if fast then (countF F V G).map Sum.inl else (countS F V G).map Sum.inr

/-! ### Compressed-row conversion (used by the callers of `count`) -/

/-- Nonzero cells of one row, in column order, as `(column, value)`. -/
def csrRow (cols : Nat) (entry : Nat → Nat) : List (Nat × Nat) :=
  ((List.range cols).filter (fun c => entry c ≠ 0)).map (fun c => (c, entry c))

/-- Compressed-row form of a `rows × cols` table given by its entries. -/
def toCSR (rows cols : Nat) (entry : Nat → Nat → Nat) : List (List (Nat × Nat)) :=
  (List.range rows).map (fun r => csrRow cols (entry r))

/-! ### Python string primitives used by the reading loops -/

/-- Characters removed by Python's `str.strip()`. -/
def isPySpace (c : Char) : Bool :=
  c = ' ' || c = '\t' || c = '\n' || c = '\r' || c = '\x0b' || c = '\x0c'

/-- `line.strip()`. -/
def pyStrip (s : String) : String :=
  String.mk (((s.data.dropWhile isPySpace).reverse.dropWhile isPySpace).reverse)

/-- Split a character list on a separator, keeping empty pieces. -/
def splitCharsAux (sep : Char) : List Char → List Char → List (List Char)
  | [], acc => [acc.reverse]
  | c :: cs, acc =>
    if c = sep then acc.reverse :: splitCharsAux sep cs []
    else splitCharsAux sep cs (c :: acc)

/-- `line.split("\t")`. -/
def pySplitTab (s : String) : List String :=
  (splitCharsAux '\t' s.data []).map (fun cs => String.mk cs)

/-- `line.startswith(comment)`. -/
def pyStartsWith (s pre : String) : Bool :=
  pre.data.isPrefixOf s.data

/-- Digit run to a number; `none` on a non-digit or on the empty run. -/
def digitsToNatAux : List Char → Nat → Option Nat
  | [], acc => some acc
  | c :: cs, acc =>
    if c.isDigit then digitsToNatAux cs (acc * 10 + (c.toNat - 48)) else none

/-- Digit run to a number, rejecting the empty run. -/
def digitsToNat : List Char → Option Nat
  | [] => none
  | cs => digitsToNatAux cs 0

/-- Python `int(s)`: surrounding whitespace, an optional sign, digits. -/
def pyInt (s : String) : Option Int :=
  match (pyStrip s).data with
  | [] => none
  | c :: cs =>
    if c = '-' then (digitsToNat cs).map (fun n => -(n : Int))
    else if c = '+' then (digitsToNat cs).map (fun n => (n : Int))
    else (digitsToNat (c :: cs)).map (fun n => (n : Int))

/-! ### The line-reading state machine (lines 105-128 and 176-199)

The trim decision: on the first data line the stripped tab-split is
computed and `use_strip` is set to whether it has exactly 4 fields; later
lines are stripped or not accordingly. -/

/-- Lines 186-195 (equally 115-124): the fields of a line under the
current trim state, together with the updated trim state. -/
def splitFields (us : Option Bool) (line : String) : List String × Option Bool :=
  match us with
  | none =>
    let fs := pySplitTab (pyStrip line)
    (fs, some (fs.length == 4))
  | some false => (pySplitTab line, some false)
  | some true => (pySplitTab (pyStrip line), some true)

/-- State of the line loop of `count`. -/
structure LState (α : Type) where
  checkComments : Bool
  useStrip : Option Bool
  scan : ScanState α

/-- Lines 176-294 minus the `for` frame: processing of one line of the
fragment file inside `count`. -/
def countLineStep {α : Type} (F : List Feature) (V : List String) (inc : α → Nat → Nat → α)
    (comment : String) (st : LState α) (line : String) : Except Err (LState α) :=
  if st.checkComments ∧ pyStartsWith line comment then .ok st
  else
    match splitFields st.useStrip line with
    | (fields, us) =>
      match fields.get? 3 with
      | none => .error .indexError
      | some bc =>
        if ¬ V.contains bc then .ok ⟨false, us, st.scan⟩
        else
          match fields.get? 0 with
          | none => .error .indexError
          | some chrom =>
            match rankOf F chrom with
            | none => .ok ⟨false, us, st.scan⟩
            | some cf =>
              match F[st.scan.fidx]? with
              | none => .error .indexError
              | some f0 =>
                match rankOf F f0.chrom with
                | none => .error .keyError
                | some rcur =>
                  match chromPhase F cf rcur st.scan.fidx with
                  | .skip => .ok ⟨false, us, st.scan⟩
                  | .brk i1 => .ok ⟨false, us, ⟨i1, st.scan.mtx, true⟩⟩
                  | .go i1 =>
                    match pyInt (fields.getD 1 "") with
                    | none => .error .valueError
                    | some a =>
                      match pyInt (fields.getD 2 "") with
                      | none => .error .valueError
                      | some b =>
                        match intervalPhase F V inc st.scan.mtx i1 cf ⟨chrom, a, b, bc⟩ with
                        | .error e => .error e
                        | .ok s2 => .ok ⟨false, us, s2⟩

/-- The line loop of `count`; a `done` scan state stops consuming lines,
modelling `break`. -/
def runLines {α : Type} (F : List Feature) (V : List String) (inc : α → Nat → Nat → α)
    (comment : String) : LState α → List String → Except Err (LState α)
  | st, [] => .ok st
  | st, line :: ls =>
    if st.scan.done then .ok st
    else
      match countLineStep F V inc comment st line with
      | .error e => .error e
      | .ok st2 => runLines F V inc comment st2 ls

/-- `count` on a list of raw lines (fast backend), lines 133-299. -/
def countLines (F : List Feature) (V : List String) (comment : String)
    (lines : List String) : Except Err (List (List Nat)) :=
  (runLines F V incEntry comment ⟨true, none, ⟨0, initDense F V, false⟩⟩ lines).map
    (fun st => st.scan.mtx)

/-- `barcodes.add(bc)`: the set is modelled as its insertion-order list. -/
def addBarcode (bcs : List String) (bc : String) : List String :=
  if bcs.contains bc then bcs else bcs ++ [bc]

/-- State of the line loop of `get_barcodes`. -/
structure GbState where
  checkComments : Bool
  useStrip : Option Bool
  bcs : List String
deriving DecidableEq

/-- Lines 105-128: processing of one line inside `get_barcodes`. -/
def gbStep (comment : String) (st : GbState) (line : String) : Except Err GbState :=
  if st.checkComments ∧ pyStartsWith line comment then .ok st
  else
    match splitFields st.useStrip line with
    | (fields, us) =>
      match fields.get? 3 with
      | none => .error .indexError
      | some bc => .ok ⟨false, us, addBarcode st.bcs bc⟩

/-- The line loop of `get_barcodes`. -/
def runGb (comment : String) : GbState → List String → Except Err GbState
  | st, [] => .ok st
  | st, line :: ls =>
    match gbStep comment st line with
    | .error e => .error e
    | .ok st2 => runGb comment st2 ls

/-- `get_barcodes` on a list of raw lines, lines 92-130. -/
def get_barcodes (comment : String) (lines : List String) : Except Err (List String) :=
  (runGb comment ⟨true, none, []⟩ lines).map GbState.bcs

/-! ### Always-strip references for the trim-decision claim -/

/-- Modelled from the spec: the reference reader that strips every line
("pure performance optimization, not a correctness requirement"); it is
the same loop started with the trim decision already made in favour of
stripping, which strips every data line. -/
def countLinesRef (F : List Feature) (V : List String) (comment : String)
    (lines : List String) : Except Err (List (List Nat)) :=
  (runLines F V incEntry comment ⟨true, some true, ⟨0, initDense F V, false⟩⟩ lines).map
    (fun st => st.scan.mtx)

/-- Modelled from the spec: `get_barcodes` against the always-strip
reference reader. -/
def get_barcodesRef (comment : String) (lines : List String) : Except Err (List String) :=
  (runGb comment ⟨true, some true, []⟩ lines).map GbState.bcs

/-! ### Spec-side predicates for the counting claims -/

/-- Column total of a dense table: the total hit count of feature `j`. -/
def colSum (m : List (List Nat)) (j : Nat) : Nat :=
  (m.map (fun row => row.getD j 0)).sum

/-- The spec's per-feature hit condition for a fragment: valid barcode,
matching chromosome, and closed-interval overlap with feature `j`. -/
def hitsFeature (F : List Feature) (V : List String) (j : Nat) (fr : Frag) : Bool :=
  V.contains fr.bc && (fr.chrom == (F.getD j defFeat).chrom) &&
    ((F.getD j defFeat).start ≤ fr.stop) && (fr.start ≤ (F.getD j defFeat).stop)

/-- Rank of the feature at index `i` (defaulted; indices are kept in
range wherever this is used). -/
def rkD (F : List Feature) (i : Nat) : Nat :=
  ((F[i]?).bind (fun f => rankOf F f.chrom)).getD 0

/-- Feature-list sortedness, rank part: chromosome ranks never decrease
along the list (equivalent to equal chromosomes being contiguous, which
the required `(chrom, start, stop)` sort guarantees). -/
def FeatRanksMono (F : List Feature) : Prop :=
  ∀ j, j < F.length → ∀ i, i ≤ j → rkD F i ≤ rkD F j

/-- Feature-list sortedness, start part: within one chromosome the start
coordinates never decrease. -/
def FeatStartsMono (F : List Feature) : Prop :=
  ∀ j, j < F.length → ∀ i, i ≤ j →
    (F.getD i defFeat).chrom = (F.getD j defFeat).chrom →
    (F.getD i defFeat).start ≤ (F.getD j defFeat).start

/-- Within one chromosome the stop coordinates never decrease (the extra
hypothesis the amended total-count claim needs). -/
def FeatStopsMono (F : List Feature) : Prop :=
  ∀ j, j < F.length → ∀ i, i ≤ j →
    (F.getD i defFeat).chrom = (F.getD j defFeat).chrom →
    (F.getD i defFeat).stop ≤ (F.getD j defFeat).stop

/-- Stream order between two fragments: chromosome ranks (where defined)
in feature first-appearance order, then start position. -/
def fragLEb (F : List Feature) (fr fr2 : Frag) : Bool :=
  (match rankOf F fr.chrom, rankOf F fr2.chrom with
   | some rp, some rq => rp ≤ rq
   | _, _ => true) &&
  (fr.chrom != fr2.chrom || fr.start ≤ fr2.start)

/-- Pairwise stream order, as a computable check. -/
def streamSortedb (F : List Feature) : List Frag → Bool
  | [] => true
  | fr :: rest => rest.all (fun fr2 => fragLEb F fr fr2) && streamSortedb F rest

/-- The fragment stream is sorted per the required order. -/
def StreamSorted (F : List Feature) (G : List Frag) : Prop :=
  streamSortedb F G = true

/-- Feature list sorted by `(chrom case-insensitive, start, stop)` - the
order the spec requires of the input, checked pairwise. -/
def lexLTb : List Char → List Char → Bool
  | [], [] => false
  | [], _ :: _ => true
  | _ :: _, [] => false
  | a :: as, b :: bs =>
    if a.val < b.val then true else if b.val < a.val then false else lexLTb as bs

def strLower (s : String) : List Char := s.data.map Char.toLower

def featLEb (f g : Feature) : Bool :=
  lexLTb (strLower f.chrom) (strLower g.chrom) ||
    (strLower f.chrom == strLower g.chrom &&
      (f.start < g.start || (f.start == g.start && f.stop ≤ g.stop)))

/-- Adjacent-pair check of the original feature sort order. -/
def featSortedOrigb : List Feature → Bool
  | [] => true
  | [_] => true
  | f :: g :: t => featLEb f g && featSortedOrigb (g :: t)

/-- The original sortedness precondition of the spec, with no condition on
stop coordinates across distinct features. -/
def FeatSortedOrig (F : List Feature) : Prop :=
  featSortedOrigb F = true

end EpiScan

namespace EpiScan

/-! ### Control-only view of the fragment step

The accumulator is opaque to the scan's control flow: one fragment step
either fails, silently moves the cursor, or emits hits for one barcode row
at a list of feature columns.  `stepCtrl` computes that outcome alone. -/

/-- Outcome of one fragment step, with the accumulator abstracted away. -/
inductive StepOut where
  | fail (e : Err)
  | silent (fidx : Nat) (done : Bool)
  | hits (r : Nat) (cols : List Nat) (fidx : Nat)
deriving DecidableEq

/-- Control part of `doHits`. -/
def hitsCtrl (F : List Feature) (V : List String) (i cf : Nat) (fr : Frag) : StepOut :=
  match bcMapping V fr.bc with
  | none => .fail .keyError
  | some r => .hits r (i :: probeHits F cf fr.start fr.stop (i + 1)) i

/-- Control part of `intervalPhase`. -/
def intervalCtrl (F : List Feature) (V : List String) (i cf : Nat) (fr : Frag) : StepOut :=
  match F[i]? with
  | none => .fail .indexError
  | some f1 =>
    if fr.stop < f1.start then .silent i false
    else if fr.start > f1.stop then
      if F.length ≤ advanceInterval F cf fr.start i then
        .silent (advanceInterval F cf fr.start i) true
      else
        match F[advanceInterval F cf fr.start i]? with
        | none => .fail .indexError
        | some f2 =>
          match rankOf F f2.chrom with
          | none => .fail .keyError
          | some r2 =>
            if r2 ≠ cf then .silent (advanceInterval F cf fr.start i) false
            else if ¬ fr.stop < f2.start then
              hitsCtrl F V (advanceInterval F cf fr.start i) cf fr
            else .silent (advanceInterval F cf fr.start i) false
    else hitsCtrl F V i cf fr

/-- Control part of `fragStep`. -/
def stepCtrl (F : List Feature) (V : List String) (fidx : Nat) (done : Bool)
    (fr : Frag) : StepOut :=
  if done then .silent fidx done
  else if ¬ V.contains fr.bc then .silent fidx done
  else
    match rankOf F fr.chrom with
    | none => .silent fidx done
    | some cf =>
      match F[fidx]? with
      | none => .fail .indexError
      | some f0 =>
        match rankOf F f0.chrom with
        | none => .fail .keyError
        | some rcur =>
          match chromPhase F cf rcur fidx with
          | .skip => .silent fidx done
          | .brk i1 => .silent i1 true
          | .go i1 => intervalCtrl F V i1 cf fr

/-- The loop condition of the follow-up probe at index `w`. -/
def probeCond (F : List Feature) (cf : Nat) (a b : Int) (w : Nat) : Prop :=
  ∃ f, F[w]? = some f ∧ ¬ (b < f.start ∨ a > f.stop) ∧ rankOf F f.chrom = some cf

/-- The shape invariant of the dense grid. -/
def Shape (m : List (List Nat)) (rows cols : Nat) : Prop :=
  m.length = rows ∧ ∀ row ∈ m, row.length = cols

/-- Cell-for-cell correspondence between the dense and the sparse tables. -/
def EntriesEq (m : List (List Nat)) (f : SpMtx) : Prop :=
  ∀ r c, denseEntry m r c = f r c

/-- Invariant of the merge-join: the cursor never exceeds the feature count,
a live cursor is in range, every feature strictly before the cursor is dead
for every remaining fragment, and after `break` every feature is dead for
every remaining fragment. -/
def CursorInv (F : List Feature) (V : List String) (fidx : Nat) (done : Bool)
    (rest : List Frag) : Prop :=
  fidx ≤ F.length ∧
  (done = false → fidx < F.length ∨ F = []) ∧
  (∀ j, j < fidx → ∀ fr ∈ rest, hitsFeature F V j fr = false) ∧
  (done = true → ∀ j, j < F.length → ∀ fr ∈ rest, hitsFeature F V j fr = false)

/-! ### Association-list lookup facts -/

theorem lookup_mem {m : List (String × Nat)} {c : String} {r : Nat}
    (h : m.lookup c = some r) : (c, r) ∈ m := by
  induction m with
  | nil => simp at h
  | cons p ps ih =>
    rcases p with ⟨k, v⟩
    rw [List.lookup_cons] at h
    cases hck : (c == k) with
    | true =>
      rw [hck] at h
      simp only [Option.some.injEq] at h
      subst h
      have : c = k := by simpa using hck
      subst this
      exact List.mem_cons_self _ _
    | false =>
      rw [hck] at h
      exact List.mem_cons_of_mem _ (ih h)

theorem lookup_append (m1 m2 : List (String × Nat)) (c : String) :
    (m1 ++ m2).lookup c =
      match m1.lookup c with
      | some r => some r
      | none => m2.lookup c := by
  induction m1 with
  | nil => simp
  | cons p ps ih =>
    rcases p with ⟨k, v⟩
    rw [List.cons_append, List.lookup_cons, List.lookup_cons]
    cases hck : (c == k) <;> simp [ih]

/-! ### Facts about `buildRanks` / `rankOf` -/

theorem buildRanks_preserve {cs : List String} {m : List (String × Nat)} {k : Nat}
    {c : String} {r : Nat} (h : m.lookup c = some r) :
    (buildRanks m k cs).lookup c = some r := by
  induction cs generalizing m k with
  | nil => simpa [buildRanks]
  | cons d ds ih =>
    by_cases hd : (m.lookup d).isSome
    · rw [buildRanks, if_pos hd]
      exact ih h
    · rw [buildRanks, if_neg hd]
      apply ih
      rw [List.lookup_cons]
      cases hcd : (c == d) with
      | true =>
        have : c = d := by simpa using hcd
        subst this
        rw [h] at hd
        simp at hd
      | false => simpa using h

theorem buildRanks_total {cs : List String} {c : String} (hc : c ∈ cs)
    {m : List (String × Nat)} {k : Nat} :
    ((buildRanks m k cs).lookup c).isSome := by
  induction cs generalizing m k with
  | nil => simp at hc
  | cons d ds ih =>
    rcases List.mem_cons.mp hc with h1 | h2
    · subst h1
      by_cases hd : (m.lookup c).isSome
      · rw [buildRanks, if_pos hd]
        rcases Option.isSome_iff_exists.mp hd with ⟨r, hr⟩
        rw [buildRanks_preserve hr]
        rfl
      · rw [buildRanks, if_neg hd]
        have hself : ((c, k) :: m).lookup c = some k := by
          rw [List.lookup_cons]
          simp
        rw [buildRanks_preserve hself]
        rfl
    · by_cases hd : (m.lookup d).isSome
      · rw [buildRanks, if_pos hd]; exact ih h2
      · rw [buildRanks, if_neg hd]; exact ih h2

/-- Invariant of the rank map: values below the counter and injective. -/
def RanksGood (m : List (String × Nat)) (k : Nat) : Prop :=
  (∀ p ∈ m, p.2 < k) ∧ ∀ p ∈ m, ∀ q ∈ m, p.2 = q.2 → p.1 = q.1

theorem buildRanks_good {cs : List String} {m : List (String × Nat)} {k : Nat}
    (hg : RanksGood m k) : ∃ k2, k ≤ k2 ∧ RanksGood (buildRanks m k cs) k2 := by
  induction cs generalizing m k with
  | nil => exact ⟨k, le_rfl, hg⟩
  | cons d ds ih =>
    by_cases hd : (m.lookup d).isSome
    · rw [buildRanks, if_pos hd]; exact ih hg
    · rw [buildRanks, if_neg hd]
      have hg2 : RanksGood ((d, k) :: m) (k + 1) := by
        constructor
        · intro p hp
          rcases List.mem_cons.mp hp with h1 | h2
          · subst h1; exact Nat.lt_succ_self _
          · exact Nat.lt_succ_of_lt (hg.1 p h2)
        · intro p hp q hq hpq
          rcases List.mem_cons.mp hp with h1 | h2 <;>
            rcases List.mem_cons.mp hq with g1 | g2
          · subst h1; subst g1; rfl
          · subst h1
            have := hg.1 q g2
            simp only at hpq
            omega
          · subst g1
            have := hg.1 p h2
            simp only at hpq
            omega
          · exact hg.2 p h2 q g2 hpq
      rcases ih hg2 with ⟨k2, hk2, hgood⟩
      exact ⟨k2, Nat.le_of_succ_le hk2, hgood⟩

theorem rank_inj {F : List Feature} {c1 c2 : String} {r : Nat}
    (h1 : rankOf F c1 = some r) (h2 : rankOf F c2 = some r) : c1 = c2 := by
  have hg : RanksGood ([] : List (String × Nat)) 0 := by
    constructor <;> intro p hp <;> simp at hp
  rcases @buildRanks_good (F.map Feature.chrom) [] 0 hg with ⟨k2, _, hgood⟩
  have m1 := lookup_mem h1
  have m2 := lookup_mem h2
  exact hgood.2 _ m1 _ m2 rfl

theorem buildRanks_dom {cs : List String} {m : List (String × Nat)} {k : Nat}
    {c : String} {r : Nat} (h : (buildRanks m k cs).lookup c = some r) :
    (m.lookup c).isSome ∨ c ∈ cs := by
  induction cs generalizing m k with
  | nil => left; rw [buildRanks] at h; rw [h]; rfl
  | cons d ds ih =>
    by_cases hd : (m.lookup d).isSome
    · rw [buildRanks, if_pos hd] at h
      rcases ih h with h1 | h2
      · exact Or.inl h1
      · exact Or.inr (List.mem_cons_of_mem _ h2)
    · rw [buildRanks, if_neg hd] at h
      rcases ih h with h1 | h2
      · rw [List.lookup_cons] at h1
        cases hcd : (c == d) with
        | true =>
          have : c = d := by simpa using hcd
          exact Or.inr (by simp [this])
        | false =>
          rw [hcd] at h1
          exact Or.inl h1
      · exact Or.inr (List.mem_cons_of_mem _ h2)

theorem rank_dom {F : List Feature} {c : String} {r : Nat}
    (h : rankOf F c = some r) : c ∈ F.map Feature.chrom := by
  rcases buildRanks_dom h with h1 | h2
  · simp at h1
  · exact h2

theorem rank_total {F : List Feature} {f : Feature} (hf : f ∈ F) :
    ∃ r, rankOf F f.chrom = some r := by
  have : f.chrom ∈ F.map Feature.chrom := List.mem_map_of_mem _ hf
  have := @buildRanks_total (F.map Feature.chrom) f.chrom this [] 0
  exact Option.isSome_iff_exists.mp this

theorem rank_nonempty {F : List Feature} {c : String} {r : Nat}
    (h : rankOf F c = some r) : F ≠ [] := by
  intro hF
  subst hF
  simp [rankOf, buildRanks] at h

end EpiScan

namespace EpiScan

/-! ### Facts about `bcMapping` / `lastIdx` -/

theorem bcDictAux_lookup (V : List String) (i : Nat) (c : String) :
    (bcDictAux V i).lookup c = (lastIdx V c).map (fun r => i + r) := by
  induction V generalizing i with
  | nil => simp [bcDictAux, lastIdx]
  | cons b bs ih =>
    rw [bcDictAux, lookup_append, ih (i + 1), lastIdx]
    cases hl : lastIdx bs c with
    | some r =>
      simp only [Option.map_some]
      have : i + 1 + r = i + (r + 1) := by omega
      simp [this]
    | none =>
      simp only [Option.map_none]
      rw [List.lookup_cons]
      cases hcb : (c == b) with
      | true =>
        have : c = b := by simpa using hcb
        subst this
        simp
      | false =>
        have : ¬ b = c := by
          intro h; subst h; simp at hcb
        simp [this]

theorem bcMapping_eq_lastIdx (V : List String) (c : String) :
    bcMapping V c = lastIdx V c := by
  rw [bcMapping, bcDictAux_lookup]
  cases lastIdx V c <;> simp

theorem lastIdx_isSome {V : List String} {c : String} (h : c ∈ V) :
    ∃ r, lastIdx V c = some r := by
  induction V with
  | nil => simp at h
  | cons b bs ih =>
    rw [lastIdx]
    rcases hl : lastIdx bs c with _ | q
    · rcases List.mem_cons.mp h with h1 | h2
      · exact ⟨0, by rw [if_pos h1.symm]⟩
      · rcases ih h2 with ⟨q, hq⟩
        rw [hq] at hl
        simp at hl
    · exact ⟨q + 1, rfl⟩

theorem lastIdx_get {V : List String} {c : String} {r : Nat}
    (h : lastIdx V c = some r) : V.get? r = some c := by
  induction V generalizing r with
  | nil => simp [lastIdx] at h
  | cons b bs ih =>
    rw [lastIdx] at h
    cases hl : lastIdx bs c with
    | some q =>
      rw [hl] at h
      simp only [Option.some.injEq] at h
      subst h
      simpa using ih hl
    | none =>
      rw [hl] at h
      by_cases hbc : b = c
      · rw [if_pos hbc] at h
        simp only [Option.some.injEq] at h
        subst h
        simp [hbc]
      · rw [if_neg hbc] at h
        simp at h

theorem lastIdx_last {V : List String} {c : String} {r : Nat}
    (h : lastIdx V c = some r) : ∀ t, r < t → V.get? t ≠ some c := by
  induction V generalizing r with
  | nil => simp [lastIdx] at h
  | cons b bs ih =>
    rw [lastIdx] at h
    intro t hrt
    cases hl : lastIdx bs c with
    | some q =>
      rw [hl] at h
      simp only [Option.some.injEq] at h
      subst h
      cases t with
      | zero => omega
      | succ t2 =>
        simp only [List.get?_cons_succ]
        exact ih hl t2 (by omega)
    | none =>
      rw [hl] at h
      by_cases hbc : b = c
      · rw [if_pos hbc] at h
        simp only [Option.some.injEq] at h
        subst h
        cases t with
        | zero => omega
        | succ t2 =>
          simp only [List.get?_cons_succ]
          intro hc
          have hmem : c ∈ bs := List.get?_mem hc
          rcases lastIdx_isSome hmem with ⟨q, hq⟩
          rw [hq] at hl
          simp at hl
      · rw [if_neg hbc] at h
        simp at h

theorem bcMapping_isSome {V : List String} {c : String} (h : V.contains c = true) :
    ∃ r, bcMapping V c = some r := by
  rw [bcMapping_eq_lastIdx]
  exact lastIdx_isSome (by simpa using h)

theorem bcMapping_lt {V : List String} {c : String} {r : Nat}
    (h : bcMapping V c = some r) : r < V.length := by
  rw [bcMapping_eq_lastIdx] at h
  have := lastIdx_get h
  exact (List.get?_eq_some.mp this).1

theorem bcMapping_get {V : List String} {c : String} {r : Nat}
    (h : bcMapping V c = some r) : V.get? r = some c := by
  rw [bcMapping_eq_lastIdx] at h
  exact lastIdx_get h

theorem bcMapping_last {V : List String} {c : String} {r : Nat}
    (h : bcMapping V c = some r) : ∀ t, r < t → V.get? t ≠ some c := by
  rw [bcMapping_eq_lastIdx] at h
  exact lastIdx_last h

end EpiScan

namespace EpiScan

/-! ### Basic coherence facts for features and ranks -/

theorem featGetD_eq {F : List Feature} {i : Nat} {f : Feature}
    (hf : F[i]? = some f) : F.getD i defFeat = f := by
  rw [List.getD_eq_getElem?_getD, hf]
  rfl

theorem rank_total_get {F : List Feature} {i : Nat} {f : Feature}
    (hf : F[i]? = some f) : ∃ r, rankOf F f.chrom = some r := by
  rcases List.getElem?_eq_some_iff.mp hf with ⟨h, hfe⟩
  exact rank_total (hfe ▸ List.getElem_mem h)

theorem rkD_eq {F : List Feature} {i : Nat} {f : Feature} {r : Nat}
    (hf : F[i]? = some f) (hr : rankOf F f.chrom = some r) : rkD F i = r := by
  rw [rkD, hf]
  simp [hr]

/-! ### Unfolding equations for the cursor-advancing loops -/

theorem advanceChrom_eq_some {F : List Feature} {i : Nat} {f : Feature} {r cf : Nat}
    (hf : F[i]? = some f) (hr : rankOf F f.chrom = some r) :
    advanceChrom F cf i = if r < cf then advanceChrom F cf (i + 1) else i := by
  rcases List.getElem?_eq_some_iff.mp hf with ⟨h, hfe⟩
  have hfuel : F.length - i = (F.length - (i + 1)) + 1 := by omega
  rw [advanceChrom, hfuel, advanceChromAux, dif_pos h, hfe, hr]
  rfl

theorem advanceChrom_eq_none {F : List Feature} {i cf : Nat} (h : F.length ≤ i) :
    advanceChrom F cf i = i := by
  have hfuel : F.length - i = 0 := by omega
  rw [advanceChrom, hfuel, advanceChromAux]

theorem advanceInterval_eq_some {F : List Feature} {i : Nat} {f : Feature} {cf : Nat}
    {a : Int} (hf : F[i]? = some f) :
    advanceInterval F cf a i =
      if a > f.stop ∧ rankOf F f.chrom = some cf then advanceInterval F cf a (i + 1)
      else i := by
  rcases List.getElem?_eq_some_iff.mp hf with ⟨h, hfe⟩
  have hfuel : F.length - i = (F.length - (i + 1)) + 1 := by omega
  rw [advanceInterval, hfuel, advanceIntervalAux, dif_pos h, hfe]
  rfl

theorem advanceInterval_eq_none {F : List Feature} {i cf : Nat} {a : Int}
    (h : F.length ≤ i) : advanceInterval F cf a i = i := by
  have hfuel : F.length - i = 0 := by omega
  rw [advanceInterval, hfuel, advanceIntervalAux]

theorem probeHits_eq_some {F : List Feature} {t : Nat} {f : Feature} {cf : Nat}
    {a b : Int} (hf : F[t]? = some f) :
    probeHits F cf a b t =
      if (¬ (b < f.start ∨ a > f.stop)) ∧ rankOf F f.chrom = some cf then
        t :: probeHits F cf a b (t + 1)
      else [] := by
  rcases List.getElem?_eq_some_iff.mp hf with ⟨h, hfe⟩
  have hfuel : F.length - t = (F.length - (t + 1)) + 1 := by omega
  rw [probeHits, hfuel, probeHitsAux, dif_pos h, hfe]
  rfl

theorem probeHits_eq_none {F : List Feature} {t cf : Nat} {a b : Int}
    (h : F.length ≤ t) : probeHits F cf a b t = [] := by
  have hfuel : F.length - t = 0 := by omega
  rw [probeHits, hfuel, probeHitsAux]

/-! ### Specifications of the cursor-advancing loops -/

theorem advanceChrom_ge (F : List Feature) (cf i : Nat) : i ≤ advanceChrom F cf i := by
  by_cases h : i < F.length
  · have hf : F[i]? = some (F[i]) := List.getElem?_eq_getElem h
    rcases rank_total_get hf with ⟨r, hr⟩
    rw [advanceChrom_eq_some hf hr]
    by_cases hcf : r < cf
    · rw [if_pos hcf]
      have := advanceChrom_ge F cf (i + 1)
      omega
    · rw [if_neg hcf]
  · rw [advanceChrom_eq_none (by omega)]
termination_by F.length - i

theorem advanceChrom_le {F : List Feature} {cf i : Nat} (h : i ≤ F.length) :
    advanceChrom F cf i ≤ F.length := by
  by_cases hi : i < F.length
  · have hf : F[i]? = some (F[i]) := List.getElem?_eq_getElem hi
    rcases rank_total_get hf with ⟨r, hr⟩
    rw [advanceChrom_eq_some hf hr]
    by_cases hcf : r < cf
    · rw [if_pos hcf]
      exact advanceChrom_le (by omega)
    · rw [if_neg hcf]
      exact h
  · rw [advanceChrom_eq_none (by omega)]
    exact h
termination_by F.length - i

theorem advanceChrom_skipped {F : List Feature} {cf i : Nat} :
    ∀ t, i ≤ t → t < advanceChrom F cf i →
      ∃ f r, F[t]? = some f ∧ rankOf F f.chrom = some r ∧ r < cf := by
  intro t hit htl
  by_cases h : i < F.length
  · have hf : F[i]? = some (F[i]) := List.getElem?_eq_getElem h
    rcases rank_total_get hf with ⟨r, hr⟩
    rw [advanceChrom_eq_some hf hr] at htl
    by_cases hcf : r < cf
    · rw [if_pos hcf] at htl
      by_cases hti : t = i
      · subst hti
        exact ⟨_, r, hf, hr, hcf⟩
      · exact advanceChrom_skipped t (by omega) htl
    · rw [if_neg hcf] at htl
      omega
  · rw [advanceChrom_eq_none (by omega)] at htl
    omega
termination_by F.length - i

theorem advanceChrom_stop {F : List Feature} {cf i : Nat}
    (h : advanceChrom F cf i < F.length) :
    ∃ f r, F[advanceChrom F cf i]? = some f ∧ rankOf F f.chrom = some r ∧ cf ≤ r := by
  by_cases hi : i < F.length
  · have hf : F[i]? = some (F[i]) := List.getElem?_eq_getElem hi
    rcases rank_total_get hf with ⟨r, hr⟩
    have heq := @advanceChrom_eq_some _ _ _ _ cf hf hr
    by_cases hcf : r < cf
    · rw [if_pos hcf] at heq
      rw [heq] at h ⊢
      exact advanceChrom_stop h
    · rw [if_neg hcf] at heq
      rw [heq] at h ⊢
      exact ⟨_, r, List.getElem?_eq_getElem h, hr, by omega⟩
  · rw [advanceChrom_eq_none (by omega)] at h
    omega
termination_by F.length - i

theorem advanceInterval_ge (F : List Feature) (cf : Nat) (a : Int) (i : Nat) :
    i ≤ advanceInterval F cf a i := by
  by_cases h : i < F.length
  · have hf : F[i]? = some (F[i]) := List.getElem?_eq_getElem h
    rw [advanceInterval_eq_some hf]
    by_cases hc : a > (F[i]).stop ∧ rankOf F (F[i]).chrom = some cf
    · rw [if_pos hc]
      have := advanceInterval_ge F cf a (i + 1)
      omega
    · rw [if_neg hc]
  · rw [advanceInterval_eq_none (by omega)]
termination_by F.length - i

theorem advanceInterval_le {F : List Feature} {cf : Nat} {a : Int} {i : Nat}
    (h : i ≤ F.length) : advanceInterval F cf a i ≤ F.length := by
  by_cases hi : i < F.length
  · have hf : F[i]? = some (F[i]) := List.getElem?_eq_getElem hi
    rw [advanceInterval_eq_some hf]
    by_cases hc : a > (F[i]).stop ∧ rankOf F (F[i]).chrom = some cf
    · rw [if_pos hc]
      exact advanceInterval_le (by omega)
    · rw [if_neg hc]
      exact h
  · rw [advanceInterval_eq_none (by omega)]
    exact h
termination_by F.length - i

theorem advanceInterval_skipped {F : List Feature} {cf : Nat} {a : Int} {i : Nat} :
    ∀ t, i ≤ t → t < advanceInterval F cf a i →
      ∃ f, F[t]? = some f ∧ a > f.stop ∧ rankOf F f.chrom = some cf := by
  intro t hit htl
  by_cases h : i < F.length
  · have hf : F[i]? = some (F[i]) := List.getElem?_eq_getElem h
    rw [advanceInterval_eq_some hf] at htl
    by_cases hc : a > (F[i]).stop ∧ rankOf F (F[i]).chrom = some cf
    · rw [if_pos hc] at htl
      by_cases hti : t = i
      · subst hti
        exact ⟨_, hf, hc⟩
      · exact advanceInterval_skipped t (by omega) htl
    · rw [if_neg hc] at htl
      omega
  · rw [advanceInterval_eq_none (by omega)] at htl
    omega
termination_by F.length - i

theorem advanceInterval_stop {F : List Feature} {cf : Nat} {a : Int} {i : Nat} {f : Feature}
    (h : F[advanceInterval F cf a i]? = some f) :
    ¬ (a > f.stop ∧ rankOf F f.chrom = some cf) := by
  by_cases hi : i < F.length
  · have hf : F[i]? = some (F[i]) := List.getElem?_eq_getElem hi
    have heq := @advanceInterval_eq_some _ _ _ cf a hf
    by_cases hc : a > (F[i]).stop ∧ rankOf F (F[i]).chrom = some cf
    · rw [if_pos hc] at heq
      rw [heq] at h
      exact advanceInterval_stop h
    · rw [if_neg hc] at heq
      rw [heq] at h
      rw [hf] at h
      injection h with h2
      subst h2
      exact hc
  · have heq := @advanceInterval_eq_none F i cf a (by omega)
    rw [heq] at h
    rcases List.getElem?_eq_some_iff.mp h with ⟨hlt, _⟩
    omega
termination_by F.length - i

/-! ### Specification of the follow-up probe -/

theorem probeHits_mem_iff {F : List Feature} {cf : Nat} {a b : Int} {u t : Nat} :
    t ∈ probeHits F cf a b u ↔
      u ≤ t ∧ ∀ w, u ≤ w → w ≤ t → probeCond F cf a b w := by
  constructor
  · intro ht
    by_cases h : u < F.length
    · have hf : F[u]? = some (F[u]) := List.getElem?_eq_getElem h
      rw [probeHits_eq_some hf] at ht
      by_cases hc : (¬ (b < (F[u]).start ∨ a > (F[u]).stop)) ∧
          rankOf F (F[u]).chrom = some cf
      · rw [if_pos hc] at ht
        rcases List.mem_cons.mp ht with h1 | h2
        · subst h1
          refine ⟨le_rfl, ?_⟩
          intro w huw hwt
          have hw : w = t := by omega
          subst hw
          exact ⟨_, hf, hc⟩
        · have hrec := (@probeHits_mem_iff F cf a b (u + 1) t).mp h2
          refine ⟨by omega, ?_⟩
          intro w huw hwt
          by_cases hwu : w = u
          · subst hwu
            exact ⟨_, hf, hc⟩
          · exact hrec.2 w (by omega) hwt
      · rw [if_neg hc] at ht
        simp at ht
    · rw [probeHits_eq_none (by omega)] at ht
      simp at ht
  · rintro ⟨hut, hall⟩
    rcases hall u le_rfl (by omega) with ⟨f, hf, hcond⟩
    rw [probeHits_eq_some hf]
    rw [if_pos hcond]
    by_cases htu : t = u
    · subst htu
      exact List.mem_cons_self _ _
    · exact List.mem_cons_of_mem _
        ((@probeHits_mem_iff F cf a b (u + 1) t).mpr
          ⟨by omega, fun w huw hwt => hall w (by omega) hwt⟩)
termination_by F.length - u
decreasing_by
  all_goals simp_wf
  · have := List.getElem?_eq_some_iff.mp hf
    omega
  · rcases List.getElem?_eq_some_iff.mp hf with ⟨hu2, _⟩
    omega

theorem probeHits_mem_bounds {F : List Feature} {cf : Nat} {a b : Int} {u t : Nat}
    (ht : t ∈ probeHits F cf a b u) : u ≤ t ∧ t < F.length := by
  have h := probeHits_mem_iff.mp ht
  rcases h.2 t h.1 le_rfl with ⟨f, hf, _⟩
  exact ⟨h.1, (List.getElem?_eq_some_iff.mp hf).1⟩

theorem probeHits_nodup (F : List Feature) (cf : Nat) (a b : Int) (u : Nat) :
    (probeHits F cf a b u).Nodup := by
  by_cases h : u < F.length
  · have hf : F[u]? = some (F[u]) := List.getElem?_eq_getElem h
    rw [probeHits_eq_some hf]
    by_cases hc : (¬ (b < (F[u]).start ∨ a > (F[u]).stop)) ∧
        rankOf F (F[u]).chrom = some cf
    · rw [if_pos hc]
      refine List.nodup_cons.mpr ⟨?_, probeHits_nodup F cf a b (u + 1)⟩
      intro hmem
      have := (probeHits_mem_bounds hmem).1
      omega
    · rw [if_neg hc]
      exact List.nodup_nil
  · rw [probeHits_eq_none (by omega)]
    exact List.nodup_nil
termination_by F.length - u

end EpiScan

namespace EpiScan

/-! ### Dense-accumulator lemmas -/

theorem sum_set_add {l : List Nat} {i : Nat} {a : Nat} (h : i < l.length) :
    (l.set i a).sum + l.getD i 0 = l.sum + a := by
  induction l generalizing i with
  | nil => simp at h
  | cons x xs ih =>
    cases i with
    | zero => simp [List.set]; omega
    | succ n =>
      simp only [List.set, List.sum_cons, List.getD_cons_succ]
      have := ih (show n < xs.length by simpa using h)
      omega

theorem incEntry_length (m : List (List Nat)) (r c : Nat) :
    (incEntry m r c).length = m.length := by
  rw [incEntry]
  cases m[r]? <;> simp

theorem incEntry_getElem?_ne {m : List (List Nat)} {r c q : Nat} (h : q ≠ r) :
    (incEntry m r c)[q]? = m[q]? := by
  rw [incEntry]
  cases m[r]? with
  | none => rfl
  | some row => exact List.getElem?_set_ne (by omega)

theorem incEntry_row {m : List (List Nat)} {r c : Nat} {row : List Nat}
    (hrow : m[r]? = some row) :
    (incEntry m r c)[r]? = some (row.set c (row.getD c 0 + 1)) := by
  rw [incEntry, hrow]
  have hr : r < m.length := (List.getElem?_eq_some_iff.mp hrow).1
  rw [List.getElem?_set_self (by omega)]

theorem getD_set_ne {l : List Nat} {i j : Nat} {a : Nat} (h : j ≠ i) :
    (l.set i a).getD j 0 = l.getD j 0 := by
  rw [List.getD_eq_getElem?_getD, List.getD_eq_getElem?_getD,
    List.getElem?_set_ne (by omega)]

theorem getD_set_self {l : List Nat} {i : Nat} {a : Nat} (h : i < l.length) :
    (l.set i a).getD i 0 = a := by
  rw [List.getD_eq_getElem?_getD, List.getElem?_set_self h]
  rfl

theorem Shape_initDense (F : List Feature) (V : List String) :
    Shape (initDense F V) V.length F.length := by
  constructor
  · simp [initDense]
  · intro row hrow
    rw [initDense] at hrow
    have := List.eq_of_mem_replicate hrow
    simp [this]

theorem Shape_incEntry {m : List (List Nat)} {rows cols r c : Nat}
    (hs : Shape m rows cols) : Shape (incEntry m r c) rows cols := by
  constructor
  · rw [incEntry_length]; exact hs.1
  · intro row hrow
    rw [incEntry] at hrow
    cases hm : m[r]? with
    | none => rw [hm] at hrow; exact hs.2 row hrow
    | some row0 =>
      rw [hm] at hrow
      rcases List.mem_or_eq_of_mem_set hrow with h1 | h2
      · exact hs.2 row h1
      · subst h2
        rw [List.length_set]
        exact hs.2 row0 (List.getElem?_mem hm)

theorem colSum_incEntry_ne {m : List (List Nat)} {r c q : Nat} (h : q ≠ c) :
    colSum (incEntry m r c) q = colSum m q := by
  rw [incEntry]
  cases hm : m[r]? with
  | none => rfl
  | some row =>
    rw [colSum, colSum, List.map_set, getD_set_ne h]
    have hr : r < m.length := (List.getElem?_eq_some_iff.mp hm).1
    have hlen : r < (m.map (fun row => row.getD q 0)).length := by
      simpa using hr
    have hset := @sum_set_add (m.map (fun row => row.getD q 0)) r (row.getD q 0) hlen
    have hgd : (m.map (fun row => row.getD q 0)).getD r 0 = row.getD q 0 := by
      rw [List.getD_eq_getElem?_getD, List.getElem?_map, hm]
      rfl
    rw [hgd] at hset
    omega

theorem colSum_incEntry_same {m : List (List Nat)} {r c : Nat} {row : List Nat}
    (hrow : m[r]? = some row) (hc : c < row.length) :
    colSum (incEntry m r c) c = colSum m c + 1 := by
  rw [incEntry, hrow, colSum, colSum, List.map_set, getD_set_self hc]
  have hr : r < m.length := (List.getElem?_eq_some_iff.mp hrow).1
  have hlen : r < (m.map (fun row => row.getD c 0)).length := by simpa using hr
  have hset := @sum_set_add (m.map (fun row => row.getD c 0)) r (row.getD c 0 + 1) hlen
  have hgd : (m.map (fun row => row.getD c 0)).getD r 0 = row.getD c 0 := by
    rw [List.getD_eq_getElem?_getD, List.getElem?_map, hrow]
    rfl
  rw [hgd] at hset
  omega

theorem colSum_initDense (F : List Feature) (V : List String) (j : Nat) :
    colSum (initDense F V) j = 0 := by
  rw [colSum, initDense, List.map_replicate]
  have : (List.replicate F.length 0).getD j 0 = 0 := by
    rw [List.getD_eq_getElem?_getD, List.getElem?_replicate]
    split <;> rfl
  rw [this]
  simp

theorem denseEntry_none {m : List (List Nat)} {p : Nat} (h : m[p]? = none) (q : Nat) :
    denseEntry m p q = 0 := by
  simp [denseEntry, List.getD_eq_getElem?_getD, h]

theorem denseEntry_some {m : List (List Nat)} {p : Nat} {row : List Nat}
    (h : m[p]? = some row) (q : Nat) : denseEntry m p q = row.getD q 0 := by
  simp [denseEntry, List.getD_eq_getElem?_getD, h]

theorem denseEntry_incEntry_ne {m : List (List Nat)} {r c p q : Nat}
    (h : ¬ (p = r ∧ q = c)) :
    denseEntry (incEntry m r c) p q = denseEntry m p q := by
  by_cases hp : p = r
  · subst hp
    have hq : q ≠ c := by tauto
    cases hm : m[p]? with
    | none => rw [incEntry, hm]
    | some row =>
      rw [denseEntry_some (incEntry_row hm) q, denseEntry_some hm q, getD_set_ne hq]
  · have he : (incEntry m r c)[p]? = m[p]? := incEntry_getElem?_ne hp
    cases hm : m[p]? with
    | none => rw [denseEntry_none (he.trans hm) q, denseEntry_none hm q]
    | some row => rw [denseEntry_some (he.trans hm) q, denseEntry_some hm q]

theorem denseEntry_incEntry_same {m : List (List Nat)} {r c : Nat} {row : List Nat}
    (hrow : m[r]? = some row) (hc : c < row.length) :
    denseEntry (incEntry m r c) r c = denseEntry m r c + 1 := by
  rw [denseEntry_some (incEntry_row hrow) c, denseEntry_some hrow c, getD_set_self hc]

theorem getD_replicate_zero (k j : Nat) : (List.replicate k (0 : Nat)).getD j 0 = 0 := by
  rw [List.getD_eq_getElem?_getD, List.getElem?_replicate]
  split <;> rfl

theorem denseEntry_initDense (F : List Feature) (V : List String) (p q : Nat) :
    denseEntry (initDense F V) p q = 0 := by
  cases hm : (initDense F V)[p]? with
  | none => exact denseEntry_none hm q
  | some row =>
    rw [denseEntry_some hm q]
    rw [initDense, List.getElem?_replicate] at hm
    split at hm
    · cases hm
      exact getD_replicate_zero _ _
    · cases hm

end EpiScan

namespace EpiScan

/-! ### The step seen through its control part -/

/-- Apply a step outcome to an accumulator. -/
theorem doHits_view {α : Type} (F : List Feature) (V : List String)
    (inc : α → Nat → Nat → α) (mtx : α) (i cf : Nat) (fr : Frag) :
    doHits F V inc mtx i cf fr =
      match hitsCtrl F V i cf fr with
      | .fail e => .error e
      | .silent j d => .ok ⟨j, mtx, d⟩
      | .hits r cols j => .ok ⟨j, cols.foldl (fun m t => inc m r t) mtx, false⟩ := by
  rw [doHits, hitsCtrl]
  cases bcMapping V fr.bc with
  | none => rfl
  | some r => rfl

theorem intervalPhase_view {α : Type} (F : List Feature) (V : List String)
    (inc : α → Nat → Nat → α) (mtx : α) (i cf : Nat) (fr : Frag) :
    intervalPhase F V inc mtx i cf fr =
      match intervalCtrl F V i cf fr with
      | .fail e => .error e
      | .silent j d => .ok ⟨j, mtx, d⟩
      | .hits r cols j => .ok ⟨j, cols.foldl (fun m t => inc m r t) mtx, false⟩ := by
  rw [intervalPhase, intervalCtrl]
  cases hf1 : F[i]? with
  | none => rfl
  | some f1 =>
    simp only []
    by_cases h1 : fr.stop < f1.start
    · rw [if_pos h1, if_pos h1]
    · rw [if_neg h1, if_neg h1]
      by_cases h2 : fr.start > f1.stop
      · rw [if_pos h2, if_pos h2]
        by_cases h3 : F.length ≤ advanceInterval F cf fr.start i
        · rw [if_pos h3, if_pos h3]
        · rw [if_neg h3, if_neg h3]
          cases hf2 : F[advanceInterval F cf fr.start i]? with
          | none => rfl
          | some f2 =>
            simp only []
            cases hr2 : rankOf F f2.chrom with
            | none => rfl
            | some r2 =>
              simp only []
              by_cases h4 : r2 ≠ cf
              · rw [if_pos h4, if_pos h4]
              · rw [if_neg h4, if_neg h4]
                by_cases h5 : ¬ fr.stop < f2.start
                · rw [if_pos h5, if_pos h5]
                  exact doHits_view F V inc mtx _ cf fr
                · rw [if_neg h5, if_neg h5]
      · rw [if_neg h2, if_neg h2]
        exact doHits_view F V inc mtx i cf fr

theorem fragStep_view {α : Type} (F : List Feature) (V : List String)
    (inc : α → Nat → Nat → α) (s : ScanState α) (fr : Frag) :
    fragStep F V inc s fr =
      match stepCtrl F V s.fidx s.done fr with
      | .fail e => .error e
      | .silent j d => .ok ⟨j, s.mtx, d⟩
      | .hits r cols j => .ok ⟨j, cols.foldl (fun m t => inc m r t) s.mtx, false⟩ := by
  rcases s with ⟨fidx, mtx, done⟩
  rw [fragStep, stepCtrl]
  simp only []
  cases done with
  | true => rfl
  | false =>
    have hdone : ¬ ((false : Bool) = true) := by simp
    rw [if_neg hdone, if_neg hdone]
    by_cases hbc : V.contains fr.bc = true
    · have h2 : ¬ ¬ V.contains fr.bc = true := not_not_intro hbc
      rw [if_neg h2, if_neg h2]
      cases hcf : rankOf F fr.chrom with
      | none => rfl
      | some cf =>
        simp only []
        cases hf0 : F[fidx]? with
        | none => rfl
        | some f0 =>
          simp only []
          cases hr0 : rankOf F f0.chrom with
          | none => rfl
          | some rcur =>
            simp only []
            cases hcp : chromPhase F cf rcur fidx with
            | skip => rfl
            | brk i1 => rfl
            | go i1 => exact intervalPhase_view F V inc mtx i1 cf fr
    · have h2 : ¬ V.contains fr.bc = true := hbc
      rw [if_pos h2, if_pos h2]

end EpiScan

namespace EpiScan

/-! ### Inversion of the chromosome phase -/

theorem chromPhase_skip_inv {F : List Feature} {cf rcur i : Nat}
    (h : chromPhase F cf rcur i = ChromRes.skip) : cf < rcur := by
  rw [chromPhase] at h
  by_cases h1 : cf < rcur
  · exact h1
  · rw [if_neg h1] at h
    by_cases h2 : rcur < cf
    · rw [if_pos h2] at h
      by_cases h3 : F.length ≤ advanceChrom F cf i
      · rw [if_pos h3] at h; cases h
      · rw [if_neg h3] at h; cases h
    · rw [if_neg h2] at h; cases h

theorem chromPhase_brk_inv {F : List Feature} {cf rcur i i1 : Nat}
    (h : chromPhase F cf rcur i = ChromRes.brk i1) :
    rcur < cf ∧ i1 = advanceChrom F cf i ∧ F.length ≤ i1 := by
  rw [chromPhase] at h
  by_cases h1 : cf < rcur
  · rw [if_pos h1] at h; cases h
  · rw [if_neg h1] at h
    by_cases h2 : rcur < cf
    · rw [if_pos h2] at h
      by_cases h3 : F.length ≤ advanceChrom F cf i
      · rw [if_pos h3] at h
        cases h
        exact ⟨h2, rfl, h3⟩
      · rw [if_neg h3] at h; cases h
    · rw [if_neg h2] at h; cases h

theorem chromPhase_go_inv {F : List Feature} {cf rcur i i1 : Nat}
    (h : chromPhase F cf rcur i = ChromRes.go i1) :
    (rcur < cf ∧ i1 = advanceChrom F cf i ∧ i1 < F.length) ∨ (rcur = cf ∧ i1 = i) := by
  rw [chromPhase] at h
  by_cases h1 : cf < rcur
  · rw [if_pos h1] at h; cases h
  · rw [if_neg h1] at h
    by_cases h2 : rcur < cf
    · rw [if_pos h2] at h
      by_cases h3 : F.length ≤ advanceChrom F cf i
      · rw [if_pos h3] at h; cases h
      · rw [if_neg h3] at h
        cases h
        exact Or.inl ⟨h2, rfl, by omega⟩
    · rw [if_neg h2] at h
      cases h
      exact Or.inr ⟨by omega, rfl⟩

/-! ### The loop over parsed fragments -/

theorem runScan_nil {α : Type} (F : List Feature) (V : List String)
    (inc : α → Nat → Nat → α) (s : ScanState α) : runScan F V inc s [] = .ok s := rfl

theorem runScan_cons {α : Type} (F : List Feature) (V : List String)
    (inc : α → Nat → Nat → α) (s : ScanState α) (fr : Frag) (rest : List Frag) :
    runScan F V inc s (fr :: rest) =
      match fragStep F V inc s fr with
      | .error e => .error e
      | .ok s2 => runScan F V inc s2 rest := rfl

theorem runScan_done {α : Type} (F : List Feature) (V : List String)
    (inc : α → Nat → Nat → α) (s : ScanState α) (G : List Frag)
    (h : s.done = true) : runScan F V inc s G = .ok s := by
  induction G with
  | nil => rfl
  | cons fr rest ih =>
    have hstep : fragStep F V inc s fr = .ok s := by rw [fragStep, if_pos h]
    rw [runScan_cons, hstep]
    exact ih

theorem runScan_append {α : Type} (F : List Feature) (V : List String)
    (inc : α → Nat → Nat → α) (s : ScanState α) (l1 l2 : List Frag) :
    runScan F V inc s (l1 ++ l2) =
      match runScan F V inc s l1 with
      | .error e => .error e
      | .ok s1 => runScan F V inc s1 l2 := by
  induction l1 generalizing s with
  | nil => rfl
  | cons fr rest ih =>
    rw [List.cons_append, runScan_cons, runScan_cons]
    cases hs : fragStep F V inc s fr with
    | error e => rfl
    | ok s2 => exact ih s2

end EpiScan

namespace EpiScan

/-! ### Branch equations for the control step -/

theorem hitsCtrl_none {F : List Feature} {V : List String} {i cf : Nat} {fr : Frag}
    (hb : bcMapping V fr.bc = none) : hitsCtrl F V i cf fr = .fail .keyError := by
  rw [hitsCtrl, hb]

theorem hitsCtrl_some {F : List Feature} {V : List String} {i cf : Nat} {fr : Frag}
    {r : Nat} (hb : bcMapping V fr.bc = some r) :
    hitsCtrl F V i cf fr = .hits r (i :: probeHits F cf fr.start fr.stop (i + 1)) i := by
  rw [hitsCtrl, hb]

theorem intervalCtrl_idxNone {F : List Feature} {V : List String} {i cf : Nat} {fr : Frag}
    (hf : F[i]? = none) : intervalCtrl F V i cf fr = .fail .indexError := by
  rw [intervalCtrl, hf]

theorem intervalCtrl_front {F : List Feature} {V : List String} {i cf : Nat} {fr : Frag}
    {f1 : Feature} (hf : F[i]? = some f1) (h1 : fr.stop < f1.start) :
    intervalCtrl F V i cf fr = .silent i false := by
  simp [intervalCtrl, hf, h1]

theorem intervalCtrl_behind_brk {F : List Feature} {V : List String} {i cf : Nat}
    {fr : Frag} {f1 : Feature} (hf : F[i]? = some f1) (h1 : ¬ fr.stop < f1.start)
    (h2 : fr.start > f1.stop) (h3 : F.length ≤ advanceInterval F cf fr.start i) :
    intervalCtrl F V i cf fr = .silent (advanceInterval F cf fr.start i) true := by
  simp [intervalCtrl, hf, h1, h2, h3]

theorem intervalCtrl_behind_idxNone {F : List Feature} {V : List String} {i cf : Nat}
    {fr : Frag} {f1 : Feature} (hf : F[i]? = some f1) (h1 : ¬ fr.stop < f1.start)
    (h2 : fr.start > f1.stop) (h3 : ¬ F.length ≤ advanceInterval F cf fr.start i)
    (hf2 : F[advanceInterval F cf fr.start i]? = none) :
    intervalCtrl F V i cf fr = .fail .indexError := by
  simp [intervalCtrl, hf, h1, h2, h3, hf2]

theorem intervalCtrl_behind_rankNone {F : List Feature} {V : List String} {i cf : Nat}
    {fr : Frag} {f1 f2 : Feature} (hf : F[i]? = some f1) (h1 : ¬ fr.stop < f1.start)
    (h2 : fr.start > f1.stop) (h3 : ¬ F.length ≤ advanceInterval F cf fr.start i)
    (hf2 : F[advanceInterval F cf fr.start i]? = some f2)
    (hr2 : rankOf F f2.chrom = none) :
    intervalCtrl F V i cf fr = .fail .keyError := by
  simp [intervalCtrl, hf, h1, h2, h3, hf2, hr2]

theorem intervalCtrl_behind_diff {F : List Feature} {V : List String} {i cf : Nat}
    {fr : Frag} {f1 f2 : Feature} {r2 : Nat} (hf : F[i]? = some f1)
    (h1 : ¬ fr.stop < f1.start) (h2 : fr.start > f1.stop)
    (h3 : ¬ F.length ≤ advanceInterval F cf fr.start i)
    (hf2 : F[advanceInterval F cf fr.start i]? = some f2)
    (hr2 : rankOf F f2.chrom = some r2) (h4 : r2 ≠ cf) :
    intervalCtrl F V i cf fr = .silent (advanceInterval F cf fr.start i) false := by
  simp [intervalCtrl, hf, h1, h2, h3, hf2, hr2, h4]

theorem intervalCtrl_behind_hit {F : List Feature} {V : List String} {i cf : Nat}
    {fr : Frag} {f1 f2 : Feature} (hf : F[i]? = some f1) (h1 : ¬ fr.stop < f1.start)
    (h2 : fr.start > f1.stop) (h3 : ¬ F.length ≤ advanceInterval F cf fr.start i)
    (hf2 : F[advanceInterval F cf fr.start i]? = some f2)
    (hr2 : rankOf F f2.chrom = some cf) (h5 : ¬ fr.stop < f2.start) :
    intervalCtrl F V i cf fr = hitsCtrl F V (advanceInterval F cf fr.start i) cf fr := by
  simp [intervalCtrl, hf, h1, h2, h3, hf2, hr2, h5]

theorem intervalCtrl_behind_front {F : List Feature} {V : List String} {i cf : Nat}
    {fr : Frag} {f1 f2 : Feature} (hf : F[i]? = some f1) (h1 : ¬ fr.stop < f1.start)
    (h2 : fr.start > f1.stop) (h3 : ¬ F.length ≤ advanceInterval F cf fr.start i)
    (hf2 : F[advanceInterval F cf fr.start i]? = some f2)
    (hr2 : rankOf F f2.chrom = some cf) (h5 : fr.stop < f2.start) :
    intervalCtrl F V i cf fr = .silent (advanceInterval F cf fr.start i) false := by
  simp [intervalCtrl, hf, h1, h2, h3, hf2, hr2, h5]

theorem intervalCtrl_overlap {F : List Feature} {V : List String} {i cf : Nat}
    {fr : Frag} {f1 : Feature} (hf : F[i]? = some f1) (h1 : ¬ fr.stop < f1.start)
    (h2 : ¬ fr.start > f1.stop) :
    intervalCtrl F V i cf fr = hitsCtrl F V i cf fr := by
  simp [intervalCtrl, hf, h1, h2]

theorem stepCtrl_done {F : List Feature} {V : List String} {fidx : Nat} {fr : Frag} :
    stepCtrl F V fidx true fr = .silent fidx true := by
  rw [stepCtrl, if_pos rfl]

theorem stepCtrl_badBc {F : List Feature} {V : List String} {fidx : Nat} {fr : Frag}
    (hbc : V.contains fr.bc = false) :
    stepCtrl F V fidx false fr = .silent fidx false := by
  have hm : fr.bc ∉ V := by simpa using hbc
  simp [stepCtrl, hm]

theorem stepCtrl_noRank {F : List Feature} {V : List String} {fidx : Nat} {fr : Frag}
    (hbc : V.contains fr.bc = true) (hcf : rankOf F fr.chrom = none) :
    stepCtrl F V fidx false fr = .silent fidx false := by
  have hm : fr.bc ∈ V := by simpa using hbc
  simp [stepCtrl, hm, hcf]

theorem stepCtrl_idxNone {F : List Feature} {V : List String} {fidx : Nat} {fr : Frag}
    {cf : Nat} (hbc : V.contains fr.bc = true) (hcf : rankOf F fr.chrom = some cf)
    (hf0 : F[fidx]? = none) :
    stepCtrl F V fidx false fr = .fail .indexError := by
  have hm : fr.bc ∈ V := by simpa using hbc
  simp [stepCtrl, hm, hcf, hf0]

theorem stepCtrl_rank0None {F : List Feature} {V : List String} {fidx : Nat} {fr : Frag}
    {cf : Nat} {f0 : Feature} (hbc : V.contains fr.bc = true)
    (hcf : rankOf F fr.chrom = some cf) (hf0 : F[fidx]? = some f0)
    (hr0 : rankOf F f0.chrom = none) :
    stepCtrl F V fidx false fr = .fail .keyError := by
  have hm : fr.bc ∈ V := by simpa using hbc
  simp [stepCtrl, hm, hcf, hf0, hr0]

theorem stepCtrl_chrom {F : List Feature} {V : List String} {fidx : Nat} {fr : Frag}
    {cf rcur : Nat} {f0 : Feature} (hbc : V.contains fr.bc = true)
    (hcf : rankOf F fr.chrom = some cf) (hf0 : F[fidx]? = some f0)
    (hr0 : rankOf F f0.chrom = some rcur) :
    stepCtrl F V fidx false fr =
      match chromPhase F cf rcur fidx with
      | .skip => .silent fidx false
      | .brk i1 => .silent i1 true
      | .go i1 => intervalCtrl F V i1 cf fr := by
  have hm : fr.bc ∈ V := by simpa using hbc
  simp [stepCtrl, hm, hcf, hf0, hr0]

end EpiScan

namespace EpiScan

/-! ### Exhaustive description of the control step's outcomes -/

theorem intervalCtrl_out (F : List Feature) (V : List String) (i cf : Nat) (fr : Frag) :
    (∃ e, intervalCtrl F V i cf fr = .fail e) ∨
    (∃ j d, intervalCtrl F V i cf fr = .silent j d ∧ i ≤ j) ∨
    (∃ r j, intervalCtrl F V i cf fr =
        .hits r (j :: probeHits F cf fr.start fr.stop (j + 1)) j ∧
      i ≤ j ∧ j < F.length ∧ bcMapping V fr.bc = some r) := by
  cases hf1 : F[i]? with
  | none => exact Or.inl ⟨_, intervalCtrl_idxNone hf1⟩
  | some f1 =>
    by_cases h1 : fr.stop < f1.start
    · exact Or.inr (Or.inl ⟨i, false, intervalCtrl_front hf1 h1, le_rfl⟩)
    · by_cases h2 : fr.start > f1.stop
      · by_cases h3 : F.length ≤ advanceInterval F cf fr.start i
        · exact Or.inr (Or.inl ⟨_, true, intervalCtrl_behind_brk hf1 h1 h2 h3,
            advanceInterval_ge F cf fr.start i⟩)
        · cases hf2 : F[advanceInterval F cf fr.start i]? with
          | none => exact Or.inl ⟨_, intervalCtrl_behind_idxNone hf1 h1 h2 h3 hf2⟩
          | some f2 =>
            cases hr2 : rankOf F f2.chrom with
            | none => exact Or.inl ⟨_, intervalCtrl_behind_rankNone hf1 h1 h2 h3 hf2 hr2⟩
            | some r2 =>
              by_cases h4 : r2 ≠ cf
              · exact Or.inr (Or.inl ⟨_, false,
                  intervalCtrl_behind_diff hf1 h1 h2 h3 hf2 hr2 h4,
                  advanceInterval_ge F cf fr.start i⟩)
              · have hr2c : rankOf F f2.chrom = some cf := by
                  rw [hr2]
                  congr 1
                  omega
                by_cases h5 : fr.stop < f2.start
                · exact Or.inr (Or.inl ⟨_, false,
                    intervalCtrl_behind_front hf1 h1 h2 h3 hf2 hr2c h5,
                    advanceInterval_ge F cf fr.start i⟩)
                · cases hb : bcMapping V fr.bc with
                  | none =>
                    refine Or.inl ⟨Err.keyError, ?_⟩
                    rw [intervalCtrl_behind_hit hf1 h1 h2 h3 hf2 hr2c h5,
                      hitsCtrl_none hb]
                  | some r =>
                    have hout : intervalCtrl F V i cf fr =
                        .hits r ((advanceInterval F cf fr.start i) ::
                          probeHits F cf fr.start fr.stop
                            (advanceInterval F cf fr.start i + 1))
                          (advanceInterval F cf fr.start i) := by
                      rw [intervalCtrl_behind_hit hf1 h1 h2 h3 hf2 hr2c h5,
                        hitsCtrl_some hb]
                    exact Or.inr (Or.inr ⟨r, advanceInterval F cf fr.start i, hout,
                      advanceInterval_ge F cf fr.start i, by omega, rfl⟩)
      · cases hb : bcMapping V fr.bc with
        | none =>
          refine Or.inl ⟨Err.keyError, ?_⟩
          rw [intervalCtrl_overlap hf1 h1 h2, hitsCtrl_none hb]
        | some r =>
          have hout : intervalCtrl F V i cf fr =
              .hits r (i :: probeHits F cf fr.start fr.stop (i + 1)) i := by
            rw [intervalCtrl_overlap hf1 h1 h2, hitsCtrl_some hb]
          exact Or.inr (Or.inr ⟨r, i, hout, le_rfl,
            (List.getElem?_eq_some_iff.mp hf1).1, rfl⟩)

theorem stepCtrl_out (F : List Feature) (V : List String) (fidx : Nat) (done : Bool)
    (fr : Frag) :
    (∃ e, stepCtrl F V fidx done fr = .fail e) ∨
    (∃ j d, stepCtrl F V fidx done fr = .silent j d ∧ fidx ≤ j) ∨
    (∃ r cf j, stepCtrl F V fidx done fr =
        .hits r (j :: probeHits F cf fr.start fr.stop (j + 1)) j ∧
      fidx ≤ j ∧ j < F.length ∧ bcMapping V fr.bc = some r) := by
  cases done with
  | true => exact Or.inr (Or.inl ⟨fidx, true, stepCtrl_done, le_rfl⟩)
  | false =>
    cases hbc : V.contains fr.bc with
    | false => exact Or.inr (Or.inl ⟨fidx, false, stepCtrl_badBc hbc, le_rfl⟩)
    | true =>
      cases hcf : rankOf F fr.chrom with
      | none => exact Or.inr (Or.inl ⟨fidx, false, stepCtrl_noRank hbc hcf, le_rfl⟩)
      | some cf =>
        cases hf0 : F[fidx]? with
        | none => exact Or.inl ⟨_, stepCtrl_idxNone hbc hcf hf0⟩
        | some f0 =>
          cases hr0 : rankOf F f0.chrom with
          | none => exact Or.inl ⟨_, stepCtrl_rank0None hbc hcf hf0 hr0⟩
          | some rcur =>
            have hchrom := @stepCtrl_chrom F V _ _ _ _ _ hbc hcf hf0 hr0
            cases hcp : chromPhase F cf rcur fidx with
            | skip =>
              rw [hchrom, hcp]
              exact Or.inr (Or.inl ⟨fidx, false, rfl, le_rfl⟩)
            | brk i1 =>
              rw [hchrom, hcp]
              rcases chromPhase_brk_inv hcp with ⟨_, hi1, _⟩
              refine Or.inr (Or.inl ⟨i1, true, rfl, ?_⟩)
              rw [hi1]
              exact advanceChrom_ge F cf fidx
            | go i1 =>
              rw [hchrom, hcp]
              have hge : fidx ≤ i1 := by
                rcases chromPhase_go_inv hcp with ⟨_, hi1, _⟩ | ⟨_, hi1⟩
                · rw [hi1]; exact advanceChrom_ge F cf fidx
                · omega
              rcases intervalCtrl_out F V i1 cf fr with hfail | hsil | hhits
              · exact Or.inl hfail
              · rcases hsil with ⟨j, d, hout, hij⟩
                exact Or.inr (Or.inl ⟨j, d, hout, by omega⟩)
              · rcases hhits with ⟨r, j, hout, hij, hjn, hb⟩
                exact Or.inr (Or.inr ⟨r, cf, j, hout, by omega, hjn, hb⟩)

end EpiScan

namespace EpiScan

/-! ### Cursor monotonicity of the step and the loop -/

theorem fragStep_mono {α : Type} {F : List Feature} {V : List String}
    {inc : α → Nat → Nat → α} {s s2 : ScanState α} {fr : Frag}
    (h : fragStep F V inc s fr = .ok s2) : s.fidx ≤ s2.fidx := by
  rw [fragStep_view] at h
  rcases stepCtrl_out F V s.fidx s.done fr with ⟨e, hout⟩ | ⟨j, d, hout, hj⟩ |
    ⟨r, cf, j, hout, hj, _, _⟩
  · rw [hout] at h; cases h
  · simp only [hout] at h
    cases h
    exact hj
  · simp only [hout] at h
    cases h
    exact hj

theorem runScan_mono {α : Type} {F : List Feature} {V : List String}
    {inc : α → Nat → Nat → α} {s s2 : ScanState α} {G : List Frag}
    (h : runScan F V inc s G = .ok s2) : s.fidx ≤ s2.fidx := by
  induction G generalizing s with
  | nil =>
    rw [runScan_nil] at h
    cases h
    exact le_rfl
  | cons fr rest ih =>
    rw [runScan_cons] at h
    cases hs : fragStep F V inc s fr with
    | error e => rw [hs] at h; cases h
    | ok smid =>
      rw [hs] at h
      exact le_trans (fragStep_mono hs) (ih h)

/-! ### Degenerate-input behaviour of the step -/

theorem fragStep_nilF {α : Type} (V : List String) (inc : α → Nat → Nat → α)
    (s : ScanState α) (fr : Frag) : fragStep [] V inc s fr = .ok s := by
  rw [fragStep]
  by_cases hd : s.done = true
  · rw [if_pos hd]
  · rw [if_neg hd]
    by_cases hbc : ¬ V.contains fr.bc
    · rw [if_pos hbc]
    · rw [if_neg hbc]
      rfl

theorem fragStep_nilV {α : Type} (F : List Feature) (inc : α → Nat → Nat → α)
    (s : ScanState α) (fr : Frag) : fragStep F [] inc s fr = .ok s := by
  rw [fragStep]
  by_cases hd : s.done = true
  · rw [if_pos hd]
  · rw [if_neg hd]
    rw [if_pos (by simp [List.contains])]

theorem runScan_nilF {α : Type} (V : List String) (inc : α → Nat → Nat → α)
    (s : ScanState α) (G : List Frag) : runScan [] V inc s G = .ok s := by
  induction G with
  | nil => rfl
  | cons fr rest ih => rw [runScan_cons, fragStep_nilF]; exact ih

theorem runScan_nilV {α : Type} (F : List Feature) (inc : α → Nat → Nat → α)
    (s : ScanState α) (G : List Frag) : runScan F [] inc s G = .ok s := by
  induction G with
  | nil => rfl
  | cons fr rest ih => rw [runScan_cons, fragStep_nilV]; exact ih

/-! ### Claim theorems, first batch -/

/-- C3: overlap is the closed-interval condition `stop ≥ fstart ∧ start ≤ fstop`:
a valid-barcode fragment `[100, 200]` against the same-chromosome feature
`[200, 300]` yields exactly one hit (touching endpoints count), while the
fragment `[100, 199]` yields zero hits. -/
theorem c3_boundary_overlap :
    countF [⟨"chr1", 200, 300⟩] ["b"] [⟨"chr1", 100, 200, "b"⟩] = .ok [[1]] ∧
    countF [⟨"chr1", 200, 300⟩] ["b"] [⟨"chr1", 100, 199, "b"⟩] = .ok [[0]] :=
  ⟨rfl, rfl⟩

/-- C5: a state that has executed `break` absorbs every further fragment
unchanged, and on the spec's scenario (one feature `chr1 [0,100]`, fragments
`chr1 [50,60]`, `chr1 [200,210]`, `chr2 [10,20]`, valid barcode `bc1`) the
second fragment drives the cursor past the end of the feature list, the scan
terminates with the `break` flag set, the third fragment is discarded, and
the resulting table is the 1×1 table `[[1]]`. -/
theorem c5_exhaustion_terminates :
    (∀ (α : Type) (F : List Feature) (V : List String) (inc : α → Nat → Nat → α)
        (s : ScanState α) (G : List Frag),
        s.done = true → runScan F V inc s G = .ok s) ∧
    runScan [⟨"chr1", 0, 100⟩] ["bc1"] incEntry
        ⟨0, initDense [⟨"chr1", 0, 100⟩] ["bc1"], false⟩
        [⟨"chr1", 50, 60, "bc1"⟩, ⟨"chr1", 200, 210, "bc1"⟩] =
      .ok ⟨1, [[1]], true⟩ ∧
    countF [⟨"chr1", 0, 100⟩] ["bc1"]
        [⟨"chr1", 50, 60, "bc1"⟩, ⟨"chr1", 200, 210, "bc1"⟩,
          ⟨"chr2", 10, 20, "bc1"⟩] =
      .ok [[1]] :=
  ⟨fun _ F V inc s G h => runScan_done F V inc s G h, rfl, rfl⟩

/-- C5 witness: the done-absorption clause applied at a concrete state. -/
theorem c5_exhaustion_terminates_witness :
    runScan [] [] incEntry (⟨3, [[2]], true⟩ : ScanState (List (List Nat)))
      [⟨"c", 0, 1, "b"⟩] = .ok ⟨3, [[2]], true⟩ :=
  c5_exhaustion_terminates.1 (List (List Nat)) [] [] incEntry ⟨3, [[2]], true⟩
    [⟨"c", 0, 1, "b"⟩] rfl

/-- C6: on an empty feature list every fragment is silently discarded and the
result is the well-formed all-zero `n_barcodes × 0` table; on an empty
valid-barcode list the result is the `0 × n_features` table; neither run
fails. -/
theorem c6_degenerate_inputs :
    (∀ (V : List String) (G : List Frag),
        countF [] V G = .ok (List.replicate V.length [])) ∧
    (∀ (F : List Feature) (G : List Frag), countF F [] G = .ok []) := by
  constructor
  · intro V G
    rw [countF, runScan_nilF]
    rfl
  · intro F G
    rw [countF, runScan_nilV]
    rfl

/-- C9 counterexample: on the spec's adjacent-overlap scenario (features
`[100,150]`, `[140,160]`, `[155,300]` on one chromosome, fragment
`[145,145]`) the code increments only the first two counts: the table is
`[[1, 1, 0]]`, not `[[1, 1, 1]]` as the claim asserts, because `[145,145]`
does not closed-overlap `[155,300]`. -/
theorem c9_counterexample :
    countF [⟨"chr1", 100, 150⟩, ⟨"chr1", 140, 160⟩, ⟨"chr1", 155, 300⟩] ["b"]
        [⟨"chr1", 145, 145, "b"⟩] = .ok [[1, 1, 0]] ∧
    hitsFeature [⟨"chr1", 100, 150⟩, ⟨"chr1", 140, 160⟩, ⟨"chr1", 155, 300⟩]
        ["b"] 2 ⟨"chr1", 145, 145, "b"⟩ = false :=
  ⟨rfl, rfl⟩

/-- C9 amended: one fragment hits several consecutive overlapping features via
forward probing: on the scenario the first two features are each incremented
exactly once and no others; the third feature is not incremented because the
fragment does not closed-overlap it, and each column total equals the number
of closed-overlapping valid-barcode fragments. -/
theorem c9_adjacent_probe :
    countF [⟨"chr1", 100, 150⟩, ⟨"chr1", 140, 160⟩, ⟨"chr1", 155, 300⟩] ["b"]
        [⟨"chr1", 145, 145, "b"⟩] = .ok [[1, 1, 0]] ∧
    (∀ j, j < 3 →
      colSum [[1, 1, 0]] j =
        List.countP
          (hitsFeature [⟨"chr1", 100, 150⟩, ⟨"chr1", 140, 160⟩, ⟨"chr1", 155, 300⟩]
            ["b"] j)
          [⟨"chr1", 145, 145, "b"⟩]) := by
  refine ⟨rfl, ?_⟩
  decide

/-- C4: the feature cursor starts at 0 and is monotonically non-decreasing
across the whole fragment stream: extending any successfully processed
prefix with more fragments never decreases the cursor, whichever
accumulator backend is used. -/
theorem c4_cursor_monotone :
    (∀ (F : List Feature) (V : List String),
        (⟨0, initDense F V, false⟩ : ScanState (List (List Nat))).fidx = 0) ∧
    (∀ (α : Type) (F : List Feature) (V : List String) (inc : α → Nat → Nat → α)
        (s : ScanState α) (l1 l2 : List Frag) (s1 s2 : ScanState α),
        runScan F V inc s l1 = .ok s1 →
        runScan F V inc s (l1 ++ l2) = .ok s2 →
        s1.fidx ≤ s2.fidx) := by
  refine ⟨fun _ _ => rfl, ?_⟩
  intro α F V inc s l1 l2 s1 s2 h1 h12
  rw [runScan_append, h1] at h12
  exact runScan_mono h12

/-- C4 witness: the prefix clause applied to the C5 scenario, whose prefix
run ends at cursor 0 and whose full run ends at cursor 1. -/
theorem c4_cursor_monotone_witness :
    (⟨0, [[1]], false⟩ : ScanState (List (List Nat))).fidx ≤
      (⟨1, [[1]], true⟩ : ScanState (List (List Nat))).fidx :=
  c4_cursor_monotone.2 (List (List Nat)) [⟨"chr1", 0, 100⟩] ["bc1"] incEntry
    ⟨0, initDense [⟨"chr1", 0, 100⟩] ["bc1"], false⟩
    [⟨"chr1", 50, 60, "bc1"⟩] [⟨"chr1", 200, 210, "bc1"⟩]
    ⟨0, [[1]], false⟩ ⟨1, [[1]], true⟩ rfl rfl

end EpiScan

namespace EpiScan

/-! ### Dense/sparse backend simulation -/

theorem incSparse_same (f : SpMtx) (r c : Nat) : incSparse f r c r c = f r c + 1 := by
  simp [incSparse]

theorem incSparse_ne {r c p q : Nat} (f : SpMtx) (h : ¬ (p = r ∧ q = c)) :
    incSparse f r c p q = f p q := by
  simp only [incSparse, if_neg h]

theorem entriesEq_inc {m : List (List Nat)} {f : SpMtx} {r c rows cols : Nat}
    (he : EntriesEq m f) (hs : Shape m rows cols) (hr : r < rows) (hc : c < cols) :
    EntriesEq (incEntry m r c) (incSparse f r c) ∧ Shape (incEntry m r c) rows cols := by
  have hrm : r < m.length := by rw [hs.1]; exact hr
  have hrow : m[r]? = some (m[r]) := List.getElem?_eq_getElem hrm
  have hlen : (m[r]).length = cols := hs.2 _ (List.getElem_mem hrm)
  refine ⟨?_, Shape_incEntry hs⟩
  intro p q
  by_cases hpq : p = r ∧ q = c
  · rcases hpq with ⟨hp, hq⟩
    subst hp
    subst hq
    rw [denseEntry_incEntry_same hrow (by omega), incSparse_same, he p q]
  · rw [denseEntry_incEntry_ne hpq, incSparse_ne f hpq, he p q]

theorem entriesEq_fold {hits : List Nat} {m : List (List Nat)} {f : SpMtx}
    {r rows cols : Nat} (he : EntriesEq m f) (hs : Shape m rows cols) (hr : r < rows)
    (hcols : ∀ t ∈ hits, t < cols) :
    EntriesEq (hits.foldl (fun m2 t => incEntry m2 r t) m)
        (hits.foldl (fun g t => incSparse g r t) f) ∧
      Shape (hits.foldl (fun m2 t => incEntry m2 r t) m) rows cols := by
  induction hits generalizing m f with
  | nil => exact ⟨he, hs⟩
  | cons t ts ih =>
    rw [List.foldl_cons, List.foldl_cons]
    have hstep := entriesEq_inc he hs hr (hcols t (List.mem_cons_self _ _))
    exact ih hstep.1 hstep.2 (fun w hw => hcols w (List.mem_cons_of_mem _ hw))

theorem fragStep_sim {F : List Feature} {V : List String} {m : List (List Nat)}
    {f : SpMtx} {i : Nat} {d : Bool} {fr : Frag}
    (he : EntriesEq m f) (hs : Shape m V.length F.length) :
    (∃ e, fragStep F V incEntry ⟨i, m, d⟩ fr = .error e ∧
        fragStep F V incSparse ⟨i, f, d⟩ fr = .error e) ∨
    (∃ i2 d2 m2 f2, fragStep F V incEntry ⟨i, m, d⟩ fr = .ok ⟨i2, m2, d2⟩ ∧
        fragStep F V incSparse ⟨i, f, d⟩ fr = .ok ⟨i2, f2, d2⟩ ∧
        EntriesEq m2 f2 ∧ Shape m2 V.length F.length) := by
  have hv1 := fragStep_view F V incEntry ⟨i, m, d⟩ fr
  have hv2 := fragStep_view F V incSparse ⟨i, f, d⟩ fr
  rcases stepCtrl_out F V i d fr with ⟨e, hout⟩ | ⟨j, d2, hout, _⟩ |
    ⟨r, cf, j, hout, _, hjn, hb⟩
  · rw [hout] at hv1 hv2
    exact Or.inl ⟨e, hv1, hv2⟩
  · rw [hout] at hv1 hv2
    exact Or.inr ⟨j, d2, m, f, hv1, hv2, he, hs⟩
  · rw [hout] at hv1 hv2
    have hrlt : r < V.length := bcMapping_lt hb
    have hcols : ∀ t ∈ j :: probeHits F cf fr.start fr.stop (j + 1), t < F.length := by
      intro t ht
      rcases List.mem_cons.mp ht with h1 | h2
      · omega
      · exact (probeHits_mem_bounds h2).2
    have hfold := @entriesEq_fold (j :: probeHits F cf fr.start fr.stop (j + 1))
      _ _ _ _ _ he hs hrlt hcols
    exact Or.inr ⟨j, false, _, _, hv1, hv2, hfold.1, hfold.2⟩

theorem runScan_sim {F : List Feature} {V : List String} {G : List Frag}
    {m : List (List Nat)} {f : SpMtx} {i : Nat} {d : Bool}
    (he : EntriesEq m f) (hs : Shape m V.length F.length) :
    (∃ e, runScan F V incEntry ⟨i, m, d⟩ G = .error e ∧
        runScan F V incSparse ⟨i, f, d⟩ G = .error e) ∨
    (∃ i2 d2 m2 f2, runScan F V incEntry ⟨i, m, d⟩ G = .ok ⟨i2, m2, d2⟩ ∧
        runScan F V incSparse ⟨i, f, d⟩ G = .ok ⟨i2, f2, d2⟩ ∧
        EntriesEq m2 f2 ∧ Shape m2 V.length F.length) := by
  induction G generalizing m f i d with
  | nil => exact Or.inr ⟨i, d, m, f, rfl, rfl, he, hs⟩
  | cons fr rest ih =>
    rw [runScan_cons, runScan_cons]
    rcases @fragStep_sim _ _ _ _ _ _ fr he hs with ⟨e, h1, h2⟩ |
      ⟨i2, d2, m2, f2, h1, h2, he2, hs2⟩
    · rw [h1, h2]
      exact Or.inl ⟨e, rfl, rfl⟩
    · rw [h1, h2]
      exact ih he2 hs2

/-- C2: the dense (`fast=True`) and sparse (`fast=False`) backends of `count`
agree cell for cell on every input, and hence their compressed-row
conversions coincide. -/
theorem c2_backend_equiv (F : List Feature) (V : List String) (G : List Frag) :
    countS F V G = (countF F V G).map (fun m => fun r c => denseEntry m r c) ∧
    (countS F V G).map (fun f => toCSR V.length F.length f) =
      (countF F V G).map
        (fun m => toCSR V.length F.length (fun r c => denseEntry m r c)) := by
  have hinit : EntriesEq (initDense F V) (fun _ _ => 0) := by
    intro r c
    exact denseEntry_initDense F V r c
  rcases @runScan_sim _ _ G _ _ 0 false hinit (Shape_initDense F V) with
    ⟨e, h1, h2⟩ | ⟨i2, d2, m2, f2, h1, h2, he2, _⟩
  · rw [countS, countF, h1, h2]
    exact ⟨rfl, rfl⟩
  · rw [countS, countF, h1, h2]
    have hf2 : f2 = fun r c => denseEntry m2 r c := by
      funext r c
      rw [he2 r c]
    rw [hf2]
    exact ⟨rfl, rfl⟩

end EpiScan

namespace EpiScan

/-! ### Row bookkeeping for duplicate barcodes -/

theorem lastIdx_spec_unique {V : List String} {c : String} {j : Nat}
    (hj : V.get? j = some c)
    (hlast : ∀ t, t < V.length → j < t → V.get? t ≠ some c) :
    lastIdx V c = some j := by
  have hmem : c ∈ V := List.get?_mem hj
  rcases lastIdx_isSome hmem with ⟨r, hr⟩
  have h1 := lastIdx_get hr
  have h2 := lastIdx_last hr
  have hrl : r < V.length := (List.get?_eq_some.mp h1).1
  by_cases hrj : r = j
  · rw [hrj] at hr
    exact hr
  · rcases Nat.lt_or_ge r j with hlt | hge
    · exact absurd hj (h2 j hlt)
    · exact absurd h1 (hlast r hrl (by omega))

theorem shape_fold {hits : List Nat} {m : List (List Nat)} {r rows cols : Nat}
    (hs : Shape m rows cols) :
    Shape (hits.foldl (fun m2 t => incEntry m2 r t) m) rows cols := by
  induction hits generalizing m with
  | nil => exact hs
  | cons t ts ih => exact ih (Shape_incEntry hs)

theorem fragStep_shape {F : List Feature} {V : List String}
    {s s2 : ScanState (List (List Nat))} {fr : Frag} {rows cols : Nat}
    (hs : Shape s.mtx rows cols)
    (h : fragStep F V incEntry s fr = .ok s2) : Shape s2.mtx rows cols := by
  rw [fragStep_view] at h
  rcases stepCtrl_out F V s.fidx s.done fr with ⟨e, hout⟩ | ⟨j, d, hout, _⟩ |
    ⟨r, cf, j, hout, _, _, _⟩
  · rw [hout] at h; cases h
  · simp only [hout] at h
    cases h
    exact hs
  · simp only [hout] at h
    cases h
    exact shape_fold hs

theorem runScan_shape {F : List Feature} {V : List String} {G : List Frag}
    {s s2 : ScanState (List (List Nat))} {rows cols : Nat}
    (hs : Shape s.mtx rows cols)
    (h : runScan F V incEntry s G = .ok s2) : Shape s2.mtx rows cols := by
  induction G generalizing s with
  | nil =>
    rw [runScan_nil] at h
    cases h
    exact hs
  | cons fr rest ih =>
    rw [runScan_cons] at h
    cases hmid : fragStep F V incEntry s fr with
    | error e => rw [hmid] at h; cases h
    | ok smid =>
      rw [hmid] at h
      exact ih (fragStep_shape hs hmid) h

theorem row_fold_preserve {hits : List Nat} {m : List (List Nat)} {r p : Nat}
    (hrp : r ≠ p) :
    (hits.foldl (fun m2 t => incEntry m2 r t) m)[p]? = m[p]? := by
  induction hits generalizing m with
  | nil => rfl
  | cons t ts ih =>
    rw [List.foldl_cons, ih, incEntry_getElem?_ne (by omega)]

theorem fragStep_row_preserve {F : List Feature} {V : List String}
    {s s2 : ScanState (List (List Nat))} {fr : Frag} {p : Nat}
    (hp : ∀ c r, bcMapping V c = some r → r ≠ p)
    (h : fragStep F V incEntry s fr = .ok s2) : s2.mtx[p]? = s.mtx[p]? := by
  rw [fragStep_view] at h
  rcases stepCtrl_out F V s.fidx s.done fr with ⟨e, hout⟩ | ⟨j, d, hout, _⟩ |
    ⟨r, cf, j, hout, _, _, hb⟩
  · rw [hout] at h; cases h
  · simp only [hout] at h
    cases h
    rfl
  · simp only [hout] at h
    cases h
    exact row_fold_preserve (hp fr.bc r hb)

theorem runScan_row_preserve {F : List Feature} {V : List String} {G : List Frag}
    {s s2 : ScanState (List (List Nat))} {p : Nat}
    (hp : ∀ c r, bcMapping V c = some r → r ≠ p)
    (h : runScan F V incEntry s G = .ok s2) : s2.mtx[p]? = s.mtx[p]? := by
  induction G generalizing s with
  | nil =>
    rw [runScan_nil] at h
    cases h
    rfl
  | cons fr rest ih =>
    rw [runScan_cons] at h
    cases hmid : fragStep F V incEntry s fr with
    | error e => rw [hmid] at h; cases h
    | ok smid =>
      rw [hmid] at h
      rw [ih h, fragStep_row_preserve hp hmid]

/-- C10: when `valid_bcs` holds the same barcode at positions `i < j` with `j`
its last occurrence, the table still has `len(valid_bcs)` rows, the barcode
is indexed at row `j` (so every increment for it lands in row `j`), and row
`i` stays all zero throughout any successful scan. -/
theorem c10_duplicate_barcodes
    (V : List String) (b : String) (i j : Nat)
    (hij : i < j) (hjl : j < V.length)
    (hvi : V.get? i = some b) (hvj : V.get? j = some b)
    (hlast : ∀ t, t < V.length → j < t → V.get? t ≠ some b) :
    bcMapping V b = some j ∧
    (∀ (F : List Feature) (G : List Frag) (s : ScanState (List (List Nat))),
      runScan F V incEntry ⟨0, initDense F V, false⟩ G = .ok s →
      s.mtx.length = V.length ∧ s.mtx[i]? = some (List.replicate F.length 0)) := by
  have hmap : bcMapping V b = some j := by
    rw [bcMapping_eq_lastIdx]
    exact lastIdx_spec_unique hvj hlast
  refine ⟨hmap, ?_⟩
  intro F G s hrun
  have hshape := @runScan_shape _ _ _ _ _ V.length F.length (Shape_initDense F V) hrun
  have hp : ∀ c r, bcMapping V c = some r → r ≠ i := by
    intro c r hc hri
    subst hri
    have hgc := bcMapping_get hc
    rw [hvi] at hgc
    cases hgc
    rw [hmap] at hc
    cases hc
    omega
  have hrow := runScan_row_preserve hp hrun
  refine ⟨hshape.1, ?_⟩
  rw [hrow]
  simp only [initDense]
  rw [List.getElem?_replicate, if_pos (by omega)]

/-- C10 witness: with `valid_bcs = ["b", "b"]` the single hit lands in row 1
and row 0 stays zero. -/
theorem c10_duplicate_barcodes_witness :
    bcMapping ["b", "b"] "b" = some 1 ∧
    (⟨0, [[0], [1]], false⟩ : ScanState (List (List Nat))).mtx.length = 2 ∧
    (⟨0, [[0], [1]], false⟩ : ScanState (List (List Nat))).mtx[0]? =
      some (List.replicate 1 0) := by
  have h := c10_duplicate_barcodes ["b", "b"] "b" 0 1 (by decide) (by decide)
    (by decide) (by decide) (by decide)
  have h2 := h.2 [⟨"chr1", 0, 10⟩] [⟨"chr1", 5, 6, "b"⟩] ⟨0, [[0], [1]], false⟩ rfl
  exact ⟨h.1, h2.1, h2.2⟩

end EpiScan

namespace EpiScan

/-! ### Line-level reading lemmas -/

theorem runGb_cons (comment : String) (st : GbState) (line : String) (ls : List String) :
    runGb comment st (line :: ls) =
      match gbStep comment st line with
      | .error e => .error e
      | .ok st2 => runGb comment st2 ls := rfl

theorem runLines_cons {α : Type} (F : List Feature) (V : List String)
    (inc : α → Nat → Nat → α) (comment : String) (st : LState α) (line : String)
    (ls : List String) :
    runLines F V inc comment st (line :: ls) =
      if st.scan.done then .ok st
      else
        match countLineStep F V inc comment st line with
        | .error e => .error e
        | .ok st2 => runLines F V inc comment st2 ls := rfl

theorem gbStep_comment {comment : String} {st : GbState} {line : String}
    (h1 : st.checkComments = true) (h2 : pyStartsWith line comment = true) :
    gbStep comment st line = .ok st := by
  rw [gbStep, if_pos ⟨h1, h2⟩]

theorem countLineStep_comment {α : Type} {F : List Feature} {V : List String}
    {inc : α → Nat → Nat → α} {comment : String} {st : LState α} {line : String}
    (h1 : st.checkComments = true) (h2 : pyStartsWith line comment = true) :
    countLineStep F V inc comment st line = .ok st := by
  rw [countLineStep, if_pos ⟨h1, h2⟩]

theorem runGb_comments {comment : String} {pre : List String}
    (hpre : ∀ l ∈ pre, pyStartsWith l comment = true) {st : GbState}
    (hc : st.checkComments = true) (rest : List String) :
    runGb comment st (pre ++ rest) = runGb comment st rest := by
  induction pre with
  | nil => rfl
  | cons l ls ih =>
    rw [List.cons_append, runGb_cons,
      gbStep_comment hc (hpre l (List.mem_cons_self _ _))]
    exact ih (fun w hw => hpre w (List.mem_cons_of_mem _ hw))

theorem runLines_comments {α : Type} {F : List Feature} {V : List String}
    {inc : α → Nat → Nat → α} {comment : String} {pre : List String}
    (hpre : ∀ l ∈ pre, pyStartsWith l comment = true) {st : LState α}
    (hc : st.checkComments = true) (hd : st.scan.done = false) (rest : List String) :
    runLines F V inc comment st (pre ++ rest) = runLines F V inc comment st rest := by
  induction pre with
  | nil => rfl
  | cons l ls ih =>
    rw [List.cons_append, runLines_cons, if_neg (by rw [hd]; simp),
      countLineStep_comment hc (hpre l (List.mem_cons_self _ _))]
    exact ih (fun w hw => hpre w (List.mem_cons_of_mem _ hw))

theorem gbStep_malformed {comment : String} {st : GbState} {bad : String}
    (hus : st.useStrip = none)
    (hnc : pyStartsWith bad comment = false)
    (hshort : (pySplitTab (pyStrip bad)).length < 4) :
    gbStep comment st bad = .error .indexError := by
  rw [gbStep, if_neg (by rw [hnc]; simp)]
  rw [hus]
  have hget : (pySplitTab (pyStrip bad))[3]? = none := by
    rw [List.getElem?_eq_none_iff]
    omega
  simp [splitFields, hget]

theorem countLineStep_malformed {α : Type} {F : List Feature} {V : List String}
    {inc : α → Nat → Nat → α} {comment : String} {st : LState α} {bad : String}
    (hus : st.useStrip = none)
    (hnc : pyStartsWith bad comment = false)
    (hshort : (pySplitTab (pyStrip bad)).length < 4) :
    countLineStep F V inc comment st bad = .error .indexError := by
  rw [countLineStep, if_neg (by rw [hnc]; simp)]
  rw [hus]
  have hget : (pySplitTab (pyStrip bad))[3]? = none := by
    rw [List.getElem?_eq_none_iff]
    omega
  simp [splitFields, hget]

/-- C7 counterexample: on the single-field line `"x"` both `count` and
`get_barcodes` fail with the generic index error raised by `line_split[3]`,
not with a `MalformedRecord` error. -/
theorem c7_counterexample :
    countLines [⟨"chr1", 0, 10⟩] ["b"] "#" ["x"] = .error .indexError ∧
    get_barcodes "#" ["x"] = .error .indexError ∧
    Err.indexError ≠ Err.malformedRecord :=
  ⟨rfl, rfl, by decide⟩

/-- C7 amended: whenever the first non-comment line of the stream has fewer
than 4 tab-separated fields (after the strip applied to a first data line),
both `count` and `get_barcodes` abort with the generic index-out-of-range
error from `line_split[3]` - they neither return a table nor produce a
`MalformedRecord`-style error; a malformed line further down the stream is
reached by `count` only if the scan has not already terminated. -/
theorem c7_malformed_generic_error
    (F : List Feature) (V : List String) (comment : String)
    (pre : List String) (bad : String) (rest : List String)
    (hpre : ∀ l ∈ pre, pyStartsWith l comment = true)
    (hbad : pyStartsWith bad comment = false)
    (hshort : (pySplitTab (pyStrip bad)).length < 4) :
    countLines F V comment (pre ++ bad :: rest) = .error .indexError ∧
    get_barcodes comment (pre ++ bad :: rest) = .error .indexError := by
  constructor
  · rw [countLines, runLines_comments hpre rfl rfl, runLines_cons,
      if_neg (by simp), countLineStep_malformed rfl hbad hshort]
    rfl
  · rw [get_barcodes, runGb_comments hpre rfl, runGb_cons,
      gbStep_malformed rfl hbad hshort]
    rfl

/-- C7 witness: the amended statement at a concrete stream. -/
theorem c7_malformed_generic_error_witness :
    countLines [] [] "#" (["#h"] ++ "a\tb" :: ["y"]) = .error .indexError ∧
    get_barcodes "#" (["#h"] ++ "a\tb" :: ["y"]) = .error .indexError :=
  c7_malformed_generic_error [] [] "#" ["#h"] "a\tb" ["y"]
    (by decide) (by decide) (by decide)

/-! ### The one-time trim decision -/

theorem splitFields_first4 {line : String}
    (h4 : (pySplitTab (pyStrip line)).length = 4) :
    splitFields none line = splitFields (some true) line := by
  simp [splitFields, h4]

theorem gbStep_congr {comment : String} {st1 st2 : GbState} {line : String}
    (hcc : st1.checkComments = st2.checkComments) (hbc : st1.bcs = st2.bcs)
    (hnc : pyStartsWith line comment = false)
    (hsf : splitFields st1.useStrip line = splitFields st2.useStrip line) :
    gbStep comment st1 line = gbStep comment st2 line := by
  rcases st1 with ⟨cc1, us1, bcs1⟩
  rcases st2 with ⟨cc2, us2, bcs2⟩
  simp only at hcc hbc
  subst hcc
  subst hbc
  rw [gbStep, gbStep, if_neg (by rw [hnc]; simp), if_neg (by rw [hnc]; simp)]
  simp only at hsf
  rw [hsf]

theorem countLineStep_congr {α : Type} {F : List Feature} {V : List String}
    {inc : α → Nat → Nat → α} {comment : String} {st1 st2 : LState α} {line : String}
    (hcc : st1.checkComments = st2.checkComments) (hsc : st1.scan = st2.scan)
    (hnc : pyStartsWith line comment = false)
    (hsf : splitFields st1.useStrip line = splitFields st2.useStrip line) :
    countLineStep F V inc comment st1 line = countLineStep F V inc comment st2 line := by
  rcases st1 with ⟨cc1, us1, sc1⟩
  rcases st2 with ⟨cc2, us2, sc2⟩
  simp only at hcc hsc
  subst hcc
  subst hsc
  rw [countLineStep, countLineStep, if_neg (by rw [hnc]; simp),
    if_neg (by rw [hnc]; simp)]
  simp only at hsf
  rw [hsf]

/-- C8 counterexample: on the stream whose first data line has 5 fields and
whose second line has exactly 4 fields ending in a newline, the one-time
trim decision leaves later lines unstripped, so `get_barcodes` keeps the
trailing newline in the barcode while the always-strip reference does not:
the results differ. -/
theorem c8_counterexample :
    get_barcodes "#" ["a\tb\tc\td\te", "a\tb\tc\tbc1\n"] = .ok ["d", "bc1\n"] ∧
    get_barcodesRef "#" ["a\tb\tc\td\te", "a\tb\tc\tbc1\n"] = .ok ["d", "bc1"] ∧
    (["d", "bc1\n"] : List String) ≠ ["d", "bc1"] :=
  ⟨rfl, rfl, by decide⟩

/-- C8 amended: the one-time trim decision agrees with the always-strip
reference whenever the first data line has exactly 4 stripped tab-separated
fields (the `use_strip = True` case): then every later line is stripped too
and `count` and `get_barcodes` return exactly the reference's results.  When
the first data line fixes `use_strip = False`, later lines are left
unstripped and the outputs can differ (see the counterexample). -/
theorem c8_trim_equiv
    (F : List Feature) (V : List String) (comment : String)
    (pre : List String) (d : String) (rest : List String)
    (hpre : ∀ l ∈ pre, pyStartsWith l comment = true)
    (hd : pyStartsWith d comment = false)
    (h4 : (pySplitTab (pyStrip d)).length = 4) :
    countLines F V comment (pre ++ d :: rest) =
      countLinesRef F V comment (pre ++ d :: rest) ∧
    get_barcodes comment (pre ++ d :: rest) =
      get_barcodesRef comment (pre ++ d :: rest) := by
  constructor
  · rw [countLines, countLinesRef, runLines_comments hpre rfl rfl,
      runLines_comments hpre rfl rfl, runLines_cons, runLines_cons,
      if_neg (by simp), if_neg (by simp),
      @countLineStep_congr _ _ _ _ _ ⟨true, none, ⟨0, initDense F V, false⟩⟩
        ⟨true, some true, ⟨0, initDense F V, false⟩⟩ _
        rfl rfl hd (splitFields_first4 h4)]
  · rw [get_barcodes, get_barcodesRef, runGb_comments hpre rfl,
      runGb_comments hpre rfl, runGb_cons, runGb_cons,
      @gbStep_congr _ ⟨true, none, []⟩ ⟨true, some true, []⟩ _
        rfl rfl hd (splitFields_first4 h4)]

/-- C8 witness: the amended statement at a concrete stream whose first data
line has exactly 4 fields. -/
theorem c8_trim_equiv_witness :
    countLines [⟨"chr1", 1, 5⟩] ["b"] "#"
        (["#h"] ++ "chr1\t1\t2\tb" :: ["chr1\t3\t4\tb\n"]) =
      countLinesRef [⟨"chr1", 1, 5⟩] ["b"] "#"
        (["#h"] ++ "chr1\t1\t2\tb" :: ["chr1\t3\t4\tb\n"]) ∧
    get_barcodes "#" (["#h"] ++ "chr1\t1\t2\tb" :: ["chr1\t3\t4\tb\n"]) =
      get_barcodesRef "#" (["#h"] ++ "chr1\t1\t2\tb" :: ["chr1\t3\t4\tb\n"]) :=
  c8_trim_equiv [⟨"chr1", 1, 5⟩] ["b"] "#" ["#h"] "chr1\t1\t2\tb"
    ["chr1\t3\t4\tb\n"] (by decide) (by decide) (by decide)

end EpiScan

namespace EpiScan

/-! ### Characterizations of the per-feature hit condition -/

theorem hitsFeature_iff {F : List Feature} {V : List String} {j : Nat} {fr : Frag}
    {fj : Feature} (hfj : F[j]? = some fj) :
    hitsFeature F V j fr = true ↔
      V.contains fr.bc = true ∧ fr.chrom = fj.chrom ∧
        fj.start ≤ fr.stop ∧ fr.start ≤ fj.stop := by
  rw [hitsFeature, featGetD_eq hfj]
  simp [Bool.and_eq_true, decide_eq_true_eq, and_assoc]

theorem hitsFeature_false_iff {F : List Feature} {V : List String} {j : Nat} {fr : Frag}
    {fj : Feature} (hfj : F[j]? = some fj) :
    hitsFeature F V j fr = false ↔
      ¬ (V.contains fr.bc = true ∧ fr.chrom = fj.chrom ∧
          fj.start ≤ fr.stop ∧ fr.start ≤ fj.stop) := by
  rw [← hitsFeature_iff hfj]
  cases hitsFeature F V j fr <;> simp

theorem hitsFeature_true_intro {F : List Feature} {V : List String} {j : Nat}
    {fr : Frag} {fj : Feature} (hfj : F[j]? = some fj)
    (hbc : V.contains fr.bc = true) (hc : fr.chrom = fj.chrom)
    (h1 : fj.start ≤ fr.stop) (h2 : fr.start ≤ fj.stop) :
    hitsFeature F V j fr = true :=
  (hitsFeature_iff hfj).mpr ⟨hbc, hc, h1, h2⟩

theorem hitsFeature_false_bc {F : List Feature} {V : List String} {j : Nat} {fr : Frag}
    {fj : Feature} (hfj : F[j]? = some fj) (h : V.contains fr.bc = false) :
    hitsFeature F V j fr = false := by
  rw [hitsFeature_false_iff hfj]
  rintro ⟨hbc, -, -, -⟩
  rw [h] at hbc
  cases hbc

theorem hitsFeature_false_chrom {F : List Feature} {V : List String} {j : Nat}
    {fr : Frag} {fj : Feature} (hfj : F[j]? = some fj) (h : fr.chrom ≠ fj.chrom) :
    hitsFeature F V j fr = false := by
  rw [hitsFeature_false_iff hfj]
  rintro ⟨-, hc, -, -⟩
  exact h hc

theorem hitsFeature_false_front {F : List Feature} {V : List String} {j : Nat}
    {fr : Frag} {fj : Feature} (hfj : F[j]? = some fj) (h : fr.stop < fj.start) :
    hitsFeature F V j fr = false := by
  rw [hitsFeature_false_iff hfj]
  rintro ⟨-, -, h1, -⟩
  omega

theorem hitsFeature_false_behind {F : List Feature} {V : List String} {j : Nat}
    {fr : Frag} {fj : Feature} (hfj : F[j]? = some fj) (h : fj.stop < fr.start) :
    hitsFeature F V j fr = false := by
  rw [hitsFeature_false_iff hfj]
  rintro ⟨-, -, -, h2⟩
  omega

theorem hitsFeature_false_unranked {F : List Feature} {V : List String} {j : Nat}
    {fr : Frag} {fj : Feature} (hfj : F[j]? = some fj)
    (h : rankOf F fr.chrom = none) :
    hitsFeature F V j fr = false := by
  rw [hitsFeature_false_iff hfj]
  rintro ⟨-, hc, -, -⟩
  rcases rank_total_get hfj with ⟨r, hr⟩
  rw [hc, hr] at h
  cases h

theorem hitsFeature_false_rank_ne {F : List Feature} {V : List String} {q : Nat}
    {fr : Frag} {fq : Feature} {rq cf : Nat}
    (hfq : F[q]? = some fq) (hrq : rankOf F fq.chrom = some rq)
    (hcf : rankOf F fr.chrom = some cf) (hne : rq ≠ cf) :
    hitsFeature F V q fr = false := by
  apply hitsFeature_false_chrom hfq
  intro hc
  rw [hc, hrq] at hcf
  cases hcf
  exact hne rfl

/-! ### Stream-order facts -/

theorem fragLEb_rank_le {F : List Feature} {fr fr2 : Frag} {r r2 : Nat}
    (h : fragLEb F fr fr2 = true)
    (h1 : rankOf F fr.chrom = some r) (h2 : rankOf F fr2.chrom = some r2) : r ≤ r2 := by
  simp only [fragLEb, h1, h2, Bool.and_eq_true] at h
  simpa using h.1

theorem fragLEb_start_le {F : List Feature} {fr fr2 : Frag}
    (h : fragLEb F fr fr2 = true) (hc : fr.chrom = fr2.chrom) :
    fr.start ≤ fr2.start := by
  simp only [fragLEb, Bool.and_eq_true, Bool.or_eq_true] at h
  rcases h.2 with h1 | h2
  · exfalso
    rw [bne_iff_ne] at h1
    exact h1 hc
  · simpa using h2

/-- A future fragment cannot hit a feature of rank below the current
fragment's rank. -/
theorem dead_low_rank_future {F : List Feature} {V : List String} {fr fr2 : Frag}
    {q : Nat} {fq : Feature} {rq cf : Nat}
    (hfq : F[q]? = some fq) (hrq : rankOf F fq.chrom = some rq) (hlow : rq < cf)
    (hcf : rankOf F fr.chrom = some cf) (hle : fragLEb F fr fr2 = true) :
    hitsFeature F V q fr2 = false := by
  apply hitsFeature_false_chrom hfq
  intro hc
  have h2 : rankOf F fr2.chrom = some rq := by rw [hc]; exact hrq
  have := fragLEb_rank_le hle hcf h2
  omega

/-- A future fragment cannot hit a same-rank feature that ends before the
current fragment starts. -/
theorem dead_interval_passed {F : List Feature} {V : List String} {fr fr2 : Frag}
    {q : Nat} {fq : Feature} {cf : Nat}
    (hfq : F[q]? = some fq) (hrq : rankOf F fq.chrom = some cf)
    (hcf : rankOf F fr.chrom = some cf) (hstop : fq.stop < fr.start)
    (hle : fragLEb F fr fr2 = true) :
    hitsFeature F V q fr2 = false := by
  by_cases hc : fr2.chrom = fq.chrom
  · apply hitsFeature_false_behind hfq
    have hcfr : fr.chrom = fq.chrom := rank_inj hcf hrq
    have hstart := fragLEb_start_le hle (by rw [hcfr, hc])
    omega
  · exact hitsFeature_false_chrom hfq hc

/-! ### Bridges into the sortedness hypotheses -/

theorem rkD_le_of_mono {F : List Feature} (hRk : FeatRanksMono F) {i j : Nat}
    (hij : i ≤ j) (hj : j < F.length) : rkD F i ≤ rkD F j :=
  hRk j hj i hij

theorem starts_mono {F : List Feature} (hSt : FeatStartsMono F) {i j : Nat}
    {fi fj : Feature} (hij : i ≤ j) (hfi : F[i]? = some fi) (hfj : F[j]? = some fj)
    (hc : fi.chrom = fj.chrom) : fi.start ≤ fj.start := by
  have hj : j < F.length := (List.getElem?_eq_some_iff.mp hfj).1
  have := hSt j hj i hij
  rw [featGetD_eq hfi, featGetD_eq hfj] at this
  exact this hc

theorem stops_mono {F : List Feature} (hSp : FeatStopsMono F) {i j : Nat}
    {fi fj : Feature} (hij : i ≤ j) (hfi : F[i]? = some fi) (hfj : F[j]? = some fj)
    (hc : fi.chrom = fj.chrom) : fi.stop ≤ fj.stop := by
  have hj : j < F.length := (List.getElem?_eq_some_iff.mp hfj).1
  have := hSp j hj i hij
  rw [featGetD_eq hfi, featGetD_eq hfj] at this
  exact this hc

end EpiScan

namespace EpiScan

/-! ### The emitted hit list is exactly the overlap set -/

theorem hitList_nodup (F : List Feature) (cf : Nat) (a b : Int) (p : Nat) :
    (p :: probeHits F cf a b (p + 1)).Nodup := by
  refine List.nodup_cons.mpr ⟨?_, probeHits_nodup F cf a b (p + 1)⟩
  intro h
  have := (probeHits_mem_bounds h).1
  omega

theorem hitSet_spec {F : List Feature} {V : List String}
    (hRk : FeatRanksMono F) (hSt : FeatStartsMono F) (hSp : FeatStopsMono F)
    {fr : Frag} {cf p : Nat} {fp : Feature}
    (hbc : V.contains fr.bc = true)
    (hcf : rankOf F fr.chrom = some cf)
    (hfp : F[p]? = some fp) (hrp : rankOf F fp.chrom = some cf)
    (hov1 : fp.start ≤ fr.stop) (hov2 : fr.start ≤ fp.stop)
    (hdead : ∀ q, q < p → hitsFeature F V q fr = false) :
    ∀ q, q ∈ p :: probeHits F cf fr.start fr.stop (p + 1) ↔
      q < F.length ∧ hitsFeature F V q fr = true := by
  intro q
  constructor
  · intro hq
    rcases List.mem_cons.mp hq with h1 | h2
    · subst h1
      have hp := (List.getElem?_eq_some_iff.mp hfp).1
      exact ⟨hp, hitsFeature_true_intro hfp hbc (rank_inj hcf hrp) hov1 hov2⟩
    · have hmem := probeHits_mem_iff.mp h2
      rcases hmem.2 q hmem.1 le_rfl with ⟨fq, hfq, hovq, hrq⟩
      have hqn := (List.getElem?_eq_some_iff.mp hfq).1
      push_neg at hovq
      exact ⟨hqn, hitsFeature_true_intro hfq hbc (rank_inj hcf hrq)
        (by omega) (by omega)⟩
  · rintro ⟨hqn, hhit⟩
    have hfq : F[q]? = some (F[q]) := List.getElem?_eq_getElem hqn
    rcases (hitsFeature_iff hfq).mp hhit with ⟨-, hchr, hq1, hq2⟩
    have hpq : p ≤ q := by
      by_contra hlt
      push_neg at hlt
      have hd := hdead q hlt
      rw [hhit] at hd
      cases hd
    by_cases hqp : q = p
    · subst hqp
      exact List.mem_cons_self _ _
    · apply List.mem_cons_of_mem
      rw [probeHits_mem_iff]
      refine ⟨by omega, ?_⟩
      intro w hw1 hw2
      have hwn : w < F.length := by omega
      have hfw : F[w]? = some (F[w]) := List.getElem?_eq_getElem hwn
      have hrq : rankOf F (F[q]).chrom = some cf := by
        rw [← hchr]
        exact hcf
      have hrw : rankOf F (F[w]).chrom = some cf := by
        rcases rank_total_get hfw with ⟨rw2, hrw2⟩
        have e1 : rkD F p = cf := rkD_eq hfp hrp
        have e2 : rkD F q = cf := rkD_eq hfq hrq
        have ew : rkD F w = rw2 := rkD_eq hfw hrw2
        have l1 : rkD F p ≤ rkD F w := rkD_le_of_mono hRk (by omega) hwn
        have l2 : rkD F w ≤ rkD F q := rkD_le_of_mono hRk (by omega) hqn
        rw [hrw2]
        congr 1
        omega
      have hcw : (F[w]).chrom = fr.chrom := rank_inj hrw hcf
      have hcp : fp.chrom = fr.chrom := rank_inj hrp hcf
      have hs1 : (F[w]).start ≤ (F[q]).start :=
        starts_mono hSt (by omega) hfw hfq (by rw [hcw, ← hchr])
      have hs2 : fp.stop ≤ (F[w]).stop :=
        stops_mono hSp (by omega) hfp hfw (by rw [hcp, hcw])
      refine ⟨F[w], hfw, ?_, hrw⟩
      intro hcon
      rcases hcon with hc1 | hc2
      · omega
      · omega

end EpiScan

namespace EpiScan

/-! ### Full specification of the interval phase under sortedness -/

theorem cursorInv_done {F : List Feature} {V : List String} {j : Nat} {rest : List Frag}
    (hle : j ≤ F.length)
    (hall : ∀ q, q < F.length → ∀ fr2 ∈ rest, hitsFeature F V q fr2 = false) :
    CursorInv F V j true rest := by
  refine ⟨hle, ?_, ?_, ?_⟩
  · intro h
    cases h
  · intro q hq fr2 h2
    exact hall q (by omega) fr2 h2
  · intro _ q hq fr2 h2
    exact hall q hq fr2 h2

theorem cursorInv_live {F : List Feature} {V : List String} {j : Nat} {rest : List Frag}
    (hlt : j < F.length)
    (hbelow : ∀ q, q < j → ∀ fr2 ∈ rest, hitsFeature F V q fr2 = false) :
    CursorInv F V j false rest := by
  refine ⟨by omega, fun _ => Or.inl hlt, hbelow, ?_⟩
  intro h
  cases h

theorem intervalCtrl_spec {F : List Feature} {V : List String}
    (hRk : FeatRanksMono F) (hSt : FeatStartsMono F) (hSp : FeatStopsMono F)
    {fr : Frag} {cf i1 : Nat} {f1 : Feature} {rest : List Frag}
    (hbc : V.contains fr.bc = true) (hcf : rankOf F fr.chrom = some cf)
    (hf1 : F[i1]? = some f1) (hr1 : rankOf F f1.chrom = some cf)
    (hdeadfr : ∀ q, q < i1 → hitsFeature F V q fr = false)
    (hdeadrest : ∀ q, q < i1 → ∀ fr2 ∈ rest, hitsFeature F V q fr2 = false)
    (hfr : ∀ fr2 ∈ rest, fragLEb F fr fr2 = true) :
    (∃ j d, intervalCtrl F V i1 cf fr = .silent j d ∧ CursorInv F V j d rest ∧
      ∀ q, q < F.length → hitsFeature F V q fr = false) ∨
    (∃ r j, intervalCtrl F V i1 cf fr =
        .hits r (j :: probeHits F cf fr.start fr.stop (j + 1)) j ∧
      CursorInv F V j false rest ∧ bcMapping V fr.bc = some r ∧
      ∀ q, (q ∈ j :: probeHits F cf fr.start fr.stop (j + 1)) ↔
        q < F.length ∧ hitsFeature F V q fr = true) := by
  have hi1 : i1 < F.length := (List.getElem?_eq_some_iff.mp hf1).1
  have hdead_ne : ∀ q, ∀ fq : Feature, F[q]? = some fq →
      rankOf F fq.chrom ≠ some cf → hitsFeature F V q fr = false := by
    intro q fq hfq hne
    apply hitsFeature_false_chrom hfq
    intro hc
    apply hne
    rw [← hc]
    exact hcf
  have e1 : rkD F i1 = cf := rkD_eq hf1 hr1
  by_cases h5a : fr.stop < f1.start
  · -- fragment entirely before the cursor feature: silent, no overlaps at all
    refine Or.inl ⟨i1, false, intervalCtrl_front hf1 h5a, cursorInv_live hi1 hdeadrest, ?_⟩
    intro q hq
    have hfq : F[q]? = some (F[q]) := List.getElem?_eq_getElem hq
    rcases rank_total_get hfq with ⟨rq, hrq⟩
    by_cases hqcf : rq = cf
    · subst hqcf
      by_cases hqi : q < i1
      · exact hdeadfr q hqi
      · push_neg at hqi
        have hcq : (F[q]).chrom = f1.chrom := rank_inj hrq hr1
        have hstart : f1.start ≤ (F[q]).start :=
          starts_mono hSt hqi hf1 hfq hcq.symm
        exact hitsFeature_false_front hfq (by omega)
    · refine hdead_ne q _ hfq ?_
      rw [hrq]
      intro hcon
      cases hcon
      exact hqcf rfl
  · by_cases h5b : fr.start > f1.stop
    · -- fragment behind the cursor feature: advance the cursor
      have hi2ge : i1 ≤ advanceInterval F cf fr.start i1 :=
        advanceInterval_ge F cf fr.start i1
      have hi2le : advanceInterval F cf fr.start i1 ≤ F.length :=
        advanceInterval_le (by omega)
      have hdeadMidFr : ∀ q, i1 ≤ q → q < advanceInterval F cf fr.start i1 →
          hitsFeature F V q fr = false := by
        intro q hq1 hq2
        rcases advanceInterval_skipped q hq1 hq2 with ⟨fq, hfq, hstop, _⟩
        exact hitsFeature_false_behind hfq (by omega)
      have hdeadBelow : ∀ q, q < advanceInterval F cf fr.start i1 →
          hitsFeature F V q fr = false := by
        intro q hq
        by_cases hqi : q < i1
        · exact hdeadfr q hqi
        · exact hdeadMidFr q (by omega) hq
      have hdeadBelowRest : ∀ q, q < advanceInterval F cf fr.start i1 →
          ∀ fr2 ∈ rest, hitsFeature F V q fr2 = false := by
        intro q hq fr2 h2
        by_cases hqi : q < i1
        · exact hdeadrest q hqi fr2 h2
        · push_neg at hqi
          rcases advanceInterval_skipped q hqi hq with ⟨fq, hfq, hstop, hrq⟩
          exact dead_interval_passed hfq hrq hcf (by omega) (hfr fr2 h2)
      by_cases h5brk : F.length ≤ advanceInterval F cf fr.start i1
      · -- ran off the feature list: break
        refine Or.inl ⟨advanceInterval F cf fr.start i1, true,
          intervalCtrl_behind_brk hf1 h5a h5b h5brk,
          cursorInv_done hi2le (fun q hq fr2 h2 => hdeadBelowRest q (by omega) fr2 h2),
          fun q hq => hdeadBelow q (by omega)⟩
      · push_neg at h5brk
        have hf2 : F[advanceInterval F cf fr.start i1]? =
            some (F[advanceInterval F cf fr.start i1]) :=
          List.getElem?_eq_getElem h5brk
        rcases rank_total_get hf2 with ⟨r2, hr2⟩
        have e2 : rkD F (advanceInterval F cf fr.start i1) = r2 := rkD_eq hf2 hr2
        have hr2ge : cf ≤ r2 := by
          have := rkD_le_of_mono hRk hi2ge h5brk
          omega
        by_cases h5d : r2 ≠ cf
        · -- cursor left the fragment's chromosome group: discard
          refine Or.inl ⟨advanceInterval F cf fr.start i1, false,
            intervalCtrl_behind_diff hf1 h5a h5b (by omega) hf2 hr2 h5d,
            cursorInv_live h5brk hdeadBelowRest, ?_⟩
          intro q hq
          by_cases hqlt : q < advanceInterval F cf fr.start i1
          · exact hdeadBelow q hqlt
          · push_neg at hqlt
            have hfq : F[q]? = some (F[q]) := List.getElem?_eq_getElem hq
            rcases rank_total_get hfq with ⟨rq, hrq⟩
            have eq2 : rkD F q = rq := rkD_eq hfq hrq
            have hmon := rkD_le_of_mono hRk hqlt hq
            refine hdead_ne q _ hfq ?_
            rw [hrq]
            intro hcon
            cases hcon
            omega
        · push_neg at h5d
          rw [h5d] at hr2
          by_cases h5e : fr.stop < (F[advanceInterval F cf fr.start i1]).start
          · -- after advancing, the fragment is in front of the feature: discard
            refine Or.inl ⟨advanceInterval F cf fr.start i1, false,
              intervalCtrl_behind_front hf1 h5a h5b (by omega) hf2 hr2 h5e,
              cursorInv_live h5brk hdeadBelowRest, ?_⟩
            intro q hq
            by_cases hqlt : q < advanceInterval F cf fr.start i1
            · exact hdeadBelow q hqlt
            · push_neg at hqlt
              have hfq : F[q]? = some (F[q]) := List.getElem?_eq_getElem hq
              rcases rank_total_get hfq with ⟨rq, hrq⟩
              by_cases hqcf : rq = cf
              · rw [hqcf] at hrq
                have hcq : (F[q]).chrom = (F[advanceInterval F cf fr.start i1]).chrom :=
                  rank_inj hrq hr2
                have hstart := starts_mono hSt hqlt hf2 hfq hcq.symm
                exact hitsFeature_false_front hfq (by omega)
              · refine hdead_ne q _ hfq ?_
                rw [hrq]
                intro hcon
                cases hcon
                exact hqcf rfl
          · -- overlap after advancing: emit hits
            rcases bcMapping_isSome hbc with ⟨r, hb⟩
            have hout : intervalCtrl F V i1 cf fr =
                .hits r (advanceInterval F cf fr.start i1 ::
                  probeHits F cf fr.start fr.stop
                    (advanceInterval F cf fr.start i1 + 1))
                  (advanceInterval F cf fr.start i1) := by
              rw [intervalCtrl_behind_hit hf1 h5a h5b (by omega) hf2 hr2 h5e,
                hitsCtrl_some hb]
            have hstop2 : fr.start ≤ (F[advanceInterval F cf fr.start i1]).stop := by
              have hstop := advanceInterval_stop hf2
              by_contra hcon
              push_neg at hcon
              exact hstop ⟨by omega, hr2⟩
            exact Or.inr ⟨r, advanceInterval F cf fr.start i1, hout,
              cursorInv_live h5brk hdeadBelowRest, hb,
              hitSet_spec hRk hSt hSp hbc hcf hf2 hr2 (by omega) hstop2 hdeadBelow⟩
    · -- overlap at the cursor feature: emit hits
      rcases bcMapping_isSome hbc with ⟨r, hb⟩
      have hout : intervalCtrl F V i1 cf fr =
          .hits r (i1 :: probeHits F cf fr.start fr.stop (i1 + 1)) i1 := by
        rw [intervalCtrl_overlap hf1 h5a h5b, hitsCtrl_some hb]
      exact Or.inr ⟨r, i1, hout, cursorInv_live hi1 hdeadrest, hb,
        hitSet_spec hRk hSt hSp hbc hcf hf1 hr1 (by omega) (by omega) hdeadfr⟩

end EpiScan

namespace EpiScan

/-! ### Full specification of one fragment step under sortedness -/

theorem stepCtrl_spec {F : List Feature} {V : List String}
    (hRk : FeatRanksMono F) (hSt : FeatStartsMono F) (hSp : FeatStopsMono F)
    {fidx : Nat} {done : Bool} {fr : Frag} {rest : List Frag}
    (hinv : CursorInv F V fidx done (fr :: rest))
    (hfr : ∀ fr2 ∈ rest, fragLEb F fr fr2 = true) :
    (∃ j d, stepCtrl F V fidx done fr = .silent j d ∧ CursorInv F V j d rest ∧
      ∀ q, q < F.length → hitsFeature F V q fr = false) ∨
    (∃ r cf j, stepCtrl F V fidx done fr =
        .hits r (j :: probeHits F cf fr.start fr.stop (j + 1)) j ∧
      CursorInv F V j false rest ∧ bcMapping V fr.bc = some r ∧
      ∀ q, (q ∈ j :: probeHits F cf fr.start fr.stop (j + 1)) ↔
        q < F.length ∧ hitsFeature F V q fr = true) := by
  obtain ⟨hle, hlive, hdead, hdoneall⟩ := hinv
  cases done with
  | true =>
    refine Or.inl ⟨fidx, true, stepCtrl_done, ?_, ?_⟩
    · exact cursorInv_done hle
        (fun q hq fr2 h2 => hdoneall rfl q hq fr2 (List.mem_cons_of_mem _ h2))
    · exact fun q hq => hdoneall rfl q hq fr (List.mem_cons_self _ _)
  | false =>
    cases hbc : V.contains fr.bc with
    | false =>
      refine Or.inl ⟨fidx, false, stepCtrl_badBc hbc, ?_, ?_⟩
      · refine ⟨hle, hlive, fun q hq fr2 h2 => hdead q hq fr2 (List.mem_cons_of_mem _ h2), ?_⟩
        intro h
        cases h
      · exact fun q hq => hitsFeature_false_bc (List.getElem?_eq_getElem hq) hbc
    | true =>
      cases hcf : rankOf F fr.chrom with
      | none =>
        refine Or.inl ⟨fidx, false, stepCtrl_noRank hbc hcf, ?_, ?_⟩
        · refine ⟨hle, hlive, fun q hq fr2 h2 => hdead q hq fr2 (List.mem_cons_of_mem _ h2), ?_⟩
          intro h
          cases h
        · exact fun q hq => hitsFeature_false_unranked (List.getElem?_eq_getElem hq) hcf
      | some cf =>
        have hFne : F ≠ [] := rank_nonempty hcf
        have hflt : fidx < F.length := by
          rcases hlive rfl with h | h
          · exact h
          · exact absurd h hFne
        have hf0 : F[fidx]? = some (F[fidx]) := List.getElem?_eq_getElem hflt
        rcases rank_total_get hf0 with ⟨rcur, hr0⟩
        have hstep := @stepCtrl_chrom F V _ _ _ _ _ hbc hcf hf0 hr0
        have e0 : rkD F fidx = rcur := rkD_eq hf0 hr0
        have hdeadfr0 : ∀ q, q < fidx → hitsFeature F V q fr = false :=
          fun q hq => hdead q hq fr (List.mem_cons_self _ _)
        have hdeadrest0 : ∀ q, q < fidx → ∀ fr2 ∈ rest, hitsFeature F V q fr2 = false :=
          fun q hq fr2 h2 => hdead q hq fr2 (List.mem_cons_of_mem _ h2)
        by_cases h4a : cf < rcur
        · -- fragment on an already-passed chromosome: discard
          have hcp : chromPhase F cf rcur fidx = ChromRes.skip := by
            rw [chromPhase, if_pos h4a]
          have hout : stepCtrl F V fidx false fr = .silent fidx false := by
            rw [hstep, hcp]
          refine Or.inl ⟨fidx, false, hout, cursorInv_live hflt hdeadrest0, ?_⟩
          intro q hq
          have hfq : F[q]? = some (F[q]) := List.getElem?_eq_getElem hq
          rcases rank_total_get hfq with ⟨rq, hrq⟩
          by_cases hqf : q < fidx
          · exact hdeadfr0 q hqf
          · push_neg at hqf
            have hmon := rkD_le_of_mono hRk hqf hq
            have eq2 : rkD F q = rq := rkD_eq hfq hrq
            refine hitsFeature_false_rank_ne hfq hrq hcf ?_
            omega
        · push_neg at h4a
          by_cases h4b : rcur < cf
          · -- fragment on a later chromosome: catch up
            have hADge : fidx ≤ advanceChrom F cf fidx := advanceChrom_ge F cf fidx
            have hADle : advanceChrom F cf fidx ≤ F.length := advanceChrom_le (by omega)
            have hdeadMidFr : ∀ q, fidx ≤ q → q < advanceChrom F cf fidx →
                hitsFeature F V q fr = false := by
              intro q h1 h2
              rcases advanceChrom_skipped q h1 h2 with ⟨fq, rq, hfq, hrq, hlow⟩
              exact hitsFeature_false_rank_ne hfq hrq hcf (by omega)
            have hdeadBelow : ∀ q, q < advanceChrom F cf fidx →
                hitsFeature F V q fr = false := by
              intro q hq
              by_cases hqf : q < fidx
              · exact hdeadfr0 q hqf
              · exact hdeadMidFr q (by omega) hq
            have hdeadBelowRest : ∀ q, q < advanceChrom F cf fidx →
                ∀ fr2 ∈ rest, hitsFeature F V q fr2 = false := by
              intro q hq fr2 h2
              by_cases hqf : q < fidx
              · exact hdeadrest0 q hqf fr2 h2
              · push_neg at hqf
                rcases advanceChrom_skipped q hqf hq with ⟨fq, rq, hfq, hrq, hlow⟩
                exact dead_low_rank_future hfq hrq hlow hcf (hfr fr2 h2)
            by_cases hbrk : F.length ≤ advanceChrom F cf fidx
            · -- ran off the feature list: break
              have hcp : chromPhase F cf rcur fidx = ChromRes.brk (advanceChrom F cf fidx) := by
                rw [chromPhase, if_neg (by omega), if_pos h4b, if_pos hbrk]
              have hout : stepCtrl F V fidx false fr =
                  .silent (advanceChrom F cf fidx) true := by
                rw [hstep, hcp]
              exact Or.inl ⟨_, true, hout,
                cursorInv_done hADle (fun q hq fr2 h2 => hdeadBelowRest q (by omega) fr2 h2),
                fun q hq => hdeadBelow q (by omega)⟩
            · push_neg at hbrk
              have hcp : chromPhase F cf rcur fidx = ChromRes.go (advanceChrom F cf fidx) := by
                rw [chromPhase, if_neg (by omega), if_pos h4b, if_neg (by omega)]
              have hout : stepCtrl F V fidx false fr =
                  intervalCtrl F V (advanceChrom F cf fidx) cf fr := by
                rw [hstep, hcp]
              rcases advanceChrom_stop hbrk with ⟨f1, r1, hf1, hr1, hclecf⟩
              have hr1cf : r1 = cf := by
                obtain ⟨k, hkl, hkc⟩ : ∃ k, ∃ (hk : k < F.length), (F[k]).chrom = fr.chrom := by
                  have hmem := rank_dom hcf
                  rw [List.mem_map] at hmem
                  obtain ⟨f, hfmem, hfc⟩ := hmem
                  obtain ⟨k, hk, hke⟩ := List.mem_iff_getElem.mp hfmem
                  exact ⟨k, hk, by rw [hke]; exact hfc⟩
                have hfk : F[k]? = some (F[k]) := List.getElem?_eq_getElem hkl
                have hrk : rankOf F (F[k]).chrom = some cf := by
                  rw [hkc]
                  exact hcf
                have ek : rkD F k = cf := rkD_eq hfk hrk
                have hki : advanceChrom F cf fidx ≤ k := by
                  by_contra hlt
                  push_neg at hlt
                  by_cases hkf : k < fidx
                  · have hmon := rkD_le_of_mono hRk (by omega : k ≤ fidx) hflt
                    rw [ek, e0] at hmon
                    omega
                  · push_neg at hkf
                    rcases advanceChrom_skipped k hkf hlt with ⟨fk2, rk2, hfk2, hrk2, hlow2⟩
                    have hfe : F[k] = fk2 := by
                      rw [hfk2] at hfk
                      exact (Option.some.inj hfk).symm
                    rw [← hfe] at hrk2
                    rw [hrk] at hrk2
                    injection hrk2 with he2
                    omega
                have hmon := rkD_le_of_mono hRk hki hkl
                have eAD : rkD F (advanceChrom F cf fidx) = r1 := rkD_eq hf1 hr1
                rw [eAD, ek] at hmon
                omega
              rw [hr1cf] at hr1
              rcases intervalCtrl_spec hRk hSt hSp hbc hcf hf1 hr1 hdeadBelow
                  hdeadBelowRest hfr with
                ⟨j, d, hic, hinv2, hall⟩ | ⟨r, j, hic, hinv2, hbm, hiff⟩
              · exact Or.inl ⟨j, d, by rw [hout, hic], hinv2, hall⟩
              · exact Or.inr ⟨r, cf, j, by rw [hout, hic], hinv2, hbm, hiff⟩
          · -- same chromosome: straight to the interval comparison
            have hrcf : rcur = cf := by omega
            have hcp : chromPhase F cf rcur fidx = ChromRes.go fidx := by
              rw [chromPhase, if_neg (by omega), if_neg (by omega)]
            have hout : stepCtrl F V fidx false fr = intervalCtrl F V fidx cf fr := by
              rw [hstep, hcp]
            rw [hrcf] at hr0
            rcases intervalCtrl_spec hRk hSt hSp hbc hcf hf0 hr0 hdeadfr0
                hdeadrest0 hfr with
              ⟨j, d, hic, hinv2, hall⟩ | ⟨r, j, hic, hinv2, hbm, hiff⟩
            · exact Or.inl ⟨j, d, by rw [hout, hic], hinv2, hall⟩
            · exact Or.inr ⟨r, cf, j, by rw [hout, hic], hinv2, hbm, hiff⟩

end EpiScan

namespace EpiScan

/-! ### Counting lift: from hit sets to column totals -/

theorem colSum_fold {hits : List Nat} {m : List (List Nat)} {r rows cols j : Nat}
    (hs : Shape m rows cols) (hr : r < rows) (hcols : ∀ t ∈ hits, t < cols)
    (hnd : hits.Nodup) :
    colSum (hits.foldl (fun m2 t => incEntry m2 r t) m) j =
      colSum m j + (if j ∈ hits then 1 else 0) := by
  induction hits generalizing m with
  | nil => simp
  | cons t ts ih =>
    rw [List.foldl_cons]
    have hnd2 := List.nodup_cons.mp hnd
    have hstep : colSum (incEntry m r t) j = colSum m j + (if j = t then 1 else 0) := by
      by_cases hjt : j = t
      · subst hjt
        have hrm : r < m.length := by rw [hs.1]; exact hr
        have hrow : m[r]? = some (m[r]) := List.getElem?_eq_getElem hrm
        have hlen : (m[r]).length = cols := hs.2 _ (List.getElem_mem hrm)
        rw [colSum_incEntry_same hrow
          (by rw [hlen]; exact hcols j (List.mem_cons_self _ _))]
        simp
      · rw [colSum_incEntry_ne hjt]
        simp [hjt]
    rw [ih (Shape_incEntry hs) (fun w hw => hcols w (List.mem_cons_of_mem _ hw)) hnd2.2,
      hstep]
    by_cases hjt : j = t
    · subst hjt
      have h1 : j ∈ j :: ts := List.mem_cons_self _ _
      simp [h1, hnd2.1]
    · by_cases hmem : j ∈ ts
      · have h1 : j ∈ t :: ts := List.mem_cons_of_mem _ hmem
        simp [hjt, hmem, h1]
      · have h1 : ¬ j ∈ t :: ts := by
          intro hc
          rcases List.mem_cons.mp hc with ha | hb
          · exact hjt ha
          · exact hmem hb
        simp [hjt, hmem, h1]

theorem fragStep_colSum {F : List Feature} {V : List String}
    (hRk : FeatRanksMono F) (hSt : FeatStartsMono F) (hSp : FeatStopsMono F)
    {s : ScanState (List (List Nat))} {fr : Frag} {rest : List Frag}
    (hinv : CursorInv F V s.fidx s.done (fr :: rest))
    (hfr : ∀ fr2 ∈ rest, fragLEb F fr fr2 = true)
    (hshape : Shape s.mtx V.length F.length) :
    ∃ s2, fragStep F V incEntry s fr = .ok s2 ∧
      CursorInv F V s2.fidx s2.done rest ∧ Shape s2.mtx V.length F.length ∧
      ∀ j, j < F.length →
        colSum s2.mtx j =
          colSum s.mtx j + (if hitsFeature F V j fr = true then 1 else 0) := by
  have hview := fragStep_view F V incEntry s fr
  rcases stepCtrl_spec hRk hSt hSp hinv hfr with
    ⟨j0, d, hout, hinv2, hall⟩ | ⟨r, cf, j0, hout, hinv2, hbm, hiff⟩
  · simp only [hout] at hview
    refine ⟨⟨j0, s.mtx, d⟩, hview, hinv2, hshape, ?_⟩
    intro j hj
    rw [hall j hj]
    simp
  · simp only [hout] at hview
    refine ⟨_, hview, hinv2, shape_fold hshape, ?_⟩
    intro j hj
    have hrlt : r < V.length := bcMapping_lt hbm
    have hcols : ∀ t ∈ j0 :: probeHits F cf fr.start fr.stop (j0 + 1), t < F.length :=
      fun t ht => ((hiff t).mp ht).1
    rw [colSum_fold hshape hrlt hcols (hitList_nodup F cf fr.start fr.stop j0)]
    congr 1
    by_cases hhit : hitsFeature F V j fr = true
    · rw [if_pos ((hiff j).mpr ⟨hj, hhit⟩), if_pos hhit]
    · rw [if_neg (fun hc => hhit ((hiff j).mp hc).2), if_neg hhit]

theorem runScan_colSum {F : List Feature} {V : List String}
    (hRk : FeatRanksMono F) (hSt : FeatStartsMono F) (hSp : FeatStopsMono F)
    {G : List Frag} {s : ScanState (List (List Nat))}
    (hG : StreamSorted F G)
    (hinv : CursorInv F V s.fidx s.done G)
    (hshape : Shape s.mtx V.length F.length) :
    ∃ s2, runScan F V incEntry s G = .ok s2 ∧
      ∀ j, j < F.length →
        colSum s2.mtx j = colSum s.mtx j + List.countP (hitsFeature F V j) G := by
  induction G generalizing s with
  | nil =>
    refine ⟨s, rfl, ?_⟩
    intro j hj
    simp
  | cons fr rest ih =>
    have hG1 : (rest.all (fun fr2 => fragLEb F fr fr2) && streamSortedb F rest) = true := hG
    rw [Bool.and_eq_true] at hG1
    have hfr : ∀ fr2 ∈ rest, fragLEb F fr fr2 = true := by
      intro fr2 h2
      exact List.all_eq_true.mp hG1.1 fr2 h2
    have hG2 : StreamSorted F rest := hG1.2
    rcases fragStep_colSum hRk hSt hSp hinv hfr hshape with
      ⟨smid, hstep, hinv2, hshape2, hdelta⟩
    rcases ih hG2 hinv2 hshape2 with ⟨s2, hrun, hcount⟩
    refine ⟨s2, ?_, ?_⟩
    · rw [runScan_cons, hstep]
      exact hrun
    · intro j hj
      rw [hcount j hj, hdelta j hj, List.countP_cons]
      by_cases hhit : hitsFeature F V j fr = true
      · simp only [hhit, if_true]
        omega
      · have hf : hitsFeature F V j fr = false := by
          cases hh : hitsFeature F V j fr
          · rfl
          · exact absurd hh hhit
        simp only [hf]
        omega

/-- C1 counterexample: on a feature list sorted by `(chrom, start, stop)` in
which a long feature precedes the short features it contains, the fragment
`[550, 560]` closed-overlaps the third feature `[500, 600]` but the probe
stops at the non-overlapping second feature `[10, 20]`, so the third
feature's total is 0 while one fragment overlaps it. -/
theorem c1_counterexample :
    FeatSortedOrig [⟨"chr1", 0, 1000⟩, ⟨"chr1", 10, 20⟩, ⟨"chr1", 500, 600⟩] ∧
    StreamSorted [⟨"chr1", 0, 1000⟩, ⟨"chr1", 10, 20⟩, ⟨"chr1", 500, 600⟩]
      [⟨"chr1", 550, 560, "b"⟩] ∧
    countF [⟨"chr1", 0, 1000⟩, ⟨"chr1", 10, 20⟩, ⟨"chr1", 500, 600⟩] ["b"]
      [⟨"chr1", 550, 560, "b"⟩] = .ok [[1, 0, 0]] ∧
    colSum [[1, 0, 0]] 2 = 0 ∧
    List.countP
      (hitsFeature [⟨"chr1", 0, 1000⟩, ⟨"chr1", 10, 20⟩, ⟨"chr1", 500, 600⟩] ["b"] 2)
      [⟨"chr1", 550, 560, "b"⟩] = 1 := by
  refine ⟨?_, ?_, rfl, rfl, rfl⟩
  · unfold FeatSortedOrig
    decide
  · unfold StreamSorted
    decide

/-- C1 amended: for every feature list whose chromosome ranks, start and also
stop coordinates are non-decreasing (per chromosome) and every fragment
stream sorted per the required order, the total hit count recorded for any
feature equals the number of fragments with a valid barcode, the feature's
chromosome and a closed-interval overlap with it. -/
theorem c1_total_hits (F : List Feature) (V : List String) (G : List Frag)
    (hRk : FeatRanksMono F) (hSt : FeatStartsMono F) (hSp : FeatStopsMono F)
    (hG : StreamSorted F G) (j : Nat) (hj : j < F.length)
    (s : ScanState (List (List Nat)))
    (hrun : runScan F V incEntry ⟨0, initDense F V, false⟩ G = .ok s) :
    colSum s.mtx j = List.countP (hitsFeature F V j) G := by
  have hinv : CursorInv F V 0 false G := by
    refine ⟨by omega, ?_, ?_, ?_⟩
    · intro _
      cases F with
      | nil => exact Or.inr rfl
      | cons f fs => exact Or.inl (by simp)
    · intro q hq
      exact absurd hq (by omega)
    · intro h
      cases h
  rcases @runScan_colSum F V hRk hSt hSp G ⟨0, initDense F V, false⟩ hG hinv
      (Shape_initDense F V) with ⟨s2, hrun2, hcount⟩
  rw [hrun] at hrun2
  injection hrun2 with he
  rw [he]
  have := hcount j hj
  rw [colSum_initDense] at this
  simpa using this

/-- C1 witness: the amended statement on a concrete sorted instance with two
fragments, checking feature 1 whose total is 2. -/
theorem c1_total_hits_witness :
    colSum [[1, 2, 1]] 1 =
      List.countP
        (hitsFeature [⟨"chr1", 100, 150⟩, ⟨"chr1", 140, 160⟩, ⟨"chr1", 155, 300⟩]
          ["b"] 1)
        [⟨"chr1", 145, 145, "b"⟩, ⟨"chr1", 156, 400, "b"⟩] := by
  have h := c1_total_hits
    [⟨"chr1", 100, 150⟩, ⟨"chr1", 140, 160⟩, ⟨"chr1", 155, 300⟩] ["b"]
    [⟨"chr1", 145, 145, "b"⟩, ⟨"chr1", 156, 400, "b"⟩]
    (by unfold FeatRanksMono; decide) (by unfold FeatStartsMono; decide)
    (by unfold FeatStopsMono; decide) (by unfold StreamSorted; decide) 1 (by decide)
    ⟨1, [[1, 2, 1]], false⟩ rfl
  simpa using h

end EpiScan
